import Mathlib

/-!
# Requencer sample rendering engine (`ext/requencer/requencer.c`)

A shallow embedding of `readsample` and `requencer_render`.

Conventions of the embedding:

* C `int` is 32 bits wide, `long` is 64 bits wide (LP64), `unsigned int` is 32 bits wide.
  Values are `Int`/`Nat`; a conversion to a 32-bit type is written `toI32`/`toU32`.
* A `float` is a finite IEEE-754 binary32 number, kept as an integer count of the
  smallest subnormal step `2^-149`. Every operation rounds to nearest, ties to even.
  The exponent range is not bounded above: overflow to infinity needs a magnitude of
  `2^128`, far beyond any sum of decoded samples.
* A memory buffer is read and written through bounds-checked accessors. An access
  outside the allocation ends the run in `Outcome.undefined`.
* Allocations succeed and `fread` delivers the whole file.
* `rb_raise` ends the run in `Outcome.raise`.
* The output file of `requencer_render` is a parameter, `OutputEnv`: whether it opens and
  which writes to it succeed. The encoder is the list of the calls made to it.
* The conversion to shorts is given twice: on the cells of the output buffer
  (`quantizeLoop`) and on its bytes (`quantizeInPlace`), where the floats and the shorts
  share the block.
-/

set_option maxRecDepth 20000
set_option exponentiation.threshold 4096

namespace Requencer

/-! ## Machine integers -/

/-- Conversion of an integer value to `unsigned int` / `uint32_t`. -/
def toU32 (x : Int) : Nat := (x % 4294967296).toNat

/-- Conversion of an integer value to `int` (two's complement wrap-around). -/
def toI32 (x : Int) : Int :=
  if toU32 x < 2147483648 then (toU32 x : Int) else (toU32 x : Int) - 4294967296

/-- Conversion of an integer value to `int16_t` (two's complement wrap-around). -/
def toI16 (x : Int) : Int :=
  if x % 65536 < 32768 then x % 65536 else x % 65536 - 65536

/-- The macro `MAX(a,b) ((a)>(b)?(a):(b))`. -/
def MAX (a b : Int) : Int := if a > b then a else b

/-- The macro `MIN(a,b) ((a)<(b)?(a):(b))`. -/
def MIN (a b : Int) : Int := if a < b then a else b

/-! ## Binary32 arithmetic -/

/-- A finite binary32 value, `units * 2^-149`. -/
structure F32 where
  units : Int
deriving DecidableEq, Repr

/-- The power `2^d` as an integer. -/
def pow2 (d : Nat) : Int := ((2 ^ d : Nat) : Int)

/-- The integer nearest to `n / 2^d`, ties going to the even neighbour. -/
def roundShift (n : Int) (d : Nat) : Int :=
  let q := n / pow2 d
  let r := n % pow2 d
  if 2 * r < pow2 d then q
  else if pow2 d < 2 * r then q + 1
  else if q % 2 = 0 then q else q + 1

/-- Number of binary digits of `n`, by repeated halving. -/
def bitLenAux : Nat → Nat → Nat
  | 0, _ => 0
  | fuel + 1, n => if n = 0 then 0 else bitLenAux fuel (n / 2) + 1

/-- Number of binary digits of the magnitude of `n`. -/
def bitLen (n : Int) : Nat := bitLenAux n.natAbs n.natAbs

/-- Rounding of the exact value `n * 2^-(149+s)` to binary32: the significand keeps
24 binary digits, and nothing below `2^-149` is kept. -/
def f32round (n : Int) (s : Nat) : F32 :=
  let d := max (bitLen n - 24) s
  ⟨roundShift n d * pow2 (d - s)⟩

/-- The value `0.0f`. -/
def f32zero : F32 := ⟨0⟩

/-- Binary32 addition. -/
def f32add (a b : F32) : F32 := f32round (a.units + b.units) 0

/-- Binary32 multiplication. -/
def f32mul (a b : F32) : F32 := f32round (a.units * b.units) 149

/-- Binary32 division by a non-zero divisor. The quotient is taken with 150 extra
binary digits and a sticky digit, then rounded once. -/
def f32div (a b : F32) : F32 :=
  let num := a.units.natAbs * 2 ^ 150
  let den := b.units.natAbs
  let q := num / den
  let sticky := if num % den = 0 then 0 else 1
  let sgn : Int := if (a.units < 0) = (b.units < 0) then 1 else -1
  f32round (sgn * ((2 * q + sticky : Nat) : Int)) 2

/-- The conversion `(float)x` of an integer. -/
def f32ofInt (x : Int) : F32 := f32round (x * pow2 149) 0

/-- The integral part of a binary32 value (truncation toward zero). -/
def f32trunc (a : F32) : Int := Int.tdiv a.units (pow2 149)

instance : Add F32 := ⟨f32add⟩
instance : Zero F32 := ⟨f32zero⟩

/-- A value that binary32 holds exactly: rounding leaves it alone. -/
def F32.isRep (a : F32) : Prop := f32round a.units 0 = a

instance (a : F32) : Decidable a.isRep := inferInstanceAs (Decidable (f32round a.units 0 = a))

/-! ## Outcomes -/

/-- The `rb_raise` sites of `readsample` that do not depend on a failing allocation or
a failing `fread`. -/
inductive Err
  | cannotOpenRead
  | badRiffHeader
  | badAudioFormat
deriving DecidableEq, Repr

/-- How a run ends: normally, in a Ruby exception, or in an operation that C leaves
undefined (an access outside an allocation, a conversion out of range). -/
inductive Outcome (β : Type)
  | ok : β → Outcome β
  | raise : Err → Outcome β
  | undefined : Outcome β
deriving DecidableEq, Repr

/-- Sequencing of runs: the first exception or bad access ends the run. -/
def Outcome.bind {β γ : Type} (x : Outcome β) (f : β → Outcome γ) : Outcome γ :=
  match x with
  | .ok v => f v
  | .raise e => .raise e
  | .undefined => .undefined

/-! ## Data model -/

/-- One byte of a file. -/
abbrev Byte := Fin 256

/-- The structure `voice_t`. -/
structure voice_t (α : Type) where
  active : Int
  pos : Int
  start : Int
  length : Int
  data : List α
deriving DecidableEq, Repr

/-- Size of `struct wavhdr_t`: thirteen fields, 44 bytes, no padding. The byte offsets are
`rifftag` 0, `chunksize` 4, `wavetag` 8, `fmttag` 12, `fmtsize` 16, `audioformat` 20,
`numchannels` 22, `samplerate` 24, `byterate` 28, `blockalign` 32, `bitspersample` 34,
`datatag` 36 and `datasize` 40. -/
def sizeof_wavhdr : Nat := 44

/-! ## `readsample` -/

/-- Read of one byte of a buffer. -/
def rd8 (buf : List Byte) (off : Nat) : Outcome Nat :=
  match buf.get? off with
  | some b => .ok b.val
  | none => .undefined

/-- Read of a little-endian `uint16_t` field. -/
def rd16 (buf : List Byte) (off : Nat) : Outcome Nat :=
  (rd8 buf off).bind fun b0 =>
  (rd8 buf (off + 1)).bind fun b1 =>
  .ok (b0 + 256 * b1)

/-- Read of a little-endian `uint32_t` field. -/
def rd32 (buf : List Byte) (off : Nat) : Outcome Nat :=
  (rd8 buf off).bind fun b0 =>
  (rd8 buf (off + 1)).bind fun b1 =>
  (rd8 buf (off + 2)).bind fun b2 =>
  (rd8 buf (off + 3)).bind fun b3 =>
  .ok (b0 + 256 * b1 + 65536 * b2 + 16777216 * b3)

/-- Read of a little-endian `int16_t`. -/
def rdI16 (buf : List Byte) (off : Nat) : Outcome Int :=
  (rd16 buf off).bind fun u => .ok (toI16 u)

/-- The test `field != expected || rest` of a header check: the field is read first,
and the rest is evaluated only when the field matches. -/
def orNe (field : Outcome Nat) (expected : Nat) (rest : Outcome Bool) : Outcome Bool :=
  field.bind fun v => if v ≠ expected then .ok true else rest

/-- First header test (tags `rifftag`, `wavetag`, `fmttag`, `datatag`). -/
def badTags (buf : List Byte) : Outcome Bool :=
  orNe (rd32 buf 0) 0x46464952 <|
  orNe (rd32 buf 8) 0x45564157 <|
  orNe (rd32 buf 12) 0x20746d66 <|
  orNe (rd32 buf 36) 0x61746164 <|
  .ok false

/-- Second header test (`audioformat`, `numchannels`, `samplerate`, `byterate`,
`bitspersample`, `blockalign`), in the order of the source. -/
def badFormat (buf : List Byte) : Outcome Bool :=
  orNe (rd16 buf 20) 0x01 <|
  orNe (rd16 buf 22) 0x02 <|
  orNe (rd32 buf 24) 44100 <|
  (rd32 buf 28).bind fun byterate =>
  (rd32 buf 24).bind fun samplerate =>
  (rd16 buf 22).bind fun numchannels =>
  (rd16 buf 34).bind fun bitspersample =>
  if byterate ≠ toU32 (samplerate * numchannels * (bitspersample >>> 3)) then .ok true else
  orNe (rd16 buf 34) 16 <|
  (rd16 buf 32).bind fun blockalign =>
  (rd16 buf 34).bind fun bitspersample =>
  (rd16 buf 22).bind fun numchannels =>
  .ok (decide (blockalign ≠ (bitspersample >>> 3) * numchannels))

/-- The sanity checks of the RIFF header: the two `if` statements with their `rb_raise`. -/
def checkHeader (buf : List Byte) : Outcome Unit :=
  (badTags buf).bind fun bad1 =>
  if bad1 then .raise .badRiffHeader else
  (badFormat buf).bind fun bad2 =>
  if bad2 then .raise .badAudioFormat else
  .ok ()

/-- The constant `1.0f/32767.0f`. -/
def recip32767 : F32 := f32div (f32ofInt 1) (f32ofInt 32767)

/-- The conversion `((float)x)*(1.0f/32767.0f)` of one 16-bit sample. -/
def decodeSample (x : Int) : F32 := f32mul (f32ofInt x) recip32767

/-- The loop `for (i=0;i<voice->length;++i) *(floatptr++)=((float)*(shortptr++))*(1.0f/32767.0f)`:
`n` iterations are left, `p` is the byte offset of `shortptr` in the file buffer. -/
def convertLoop (buf : List Byte) : Nat → Nat → Outcome (List F32)
  | 0, _ => .ok []
  | n + 1, p =>
    (rdI16 buf p).bind fun x =>
    (convertLoop buf n (p + 2)).bind fun rest =>
    .ok (decodeSample x :: rest)

/-- The function `readsample`. The file is `none` when `fopen` fails; otherwise it is
the byte content, which `fread` delivers in full. Allocations succeed. -/
def readsample (voice : voice_t F32) (file : Option (List Byte)) : Outcome (voice_t F32) :=
  match file with
  | none => .raise .cannotOpenRead
  | some buf =>
    (checkHeader buf).bind fun _ =>
    (rd32 buf 40).bind fun datasize =>
    let length := datasize >>> 1
    (convertLoop buf length sizeof_wavhdr).bind fun data =>
    .ok { voice with length := (length : Int), data := data }

/-! ## `readsample`: the writes to the voice -/

/-- A write of `readsample` to the structure `*voice` or to the block `voice->data`. -/
inductive VoiceWrite
  /-- The assignment `voice->length = n`. -/
  | length (n : Int)
  /-- The call `posix_memalign((void**)&voice->data,16,n*sizeof(float))`. -/
  | alloc (n : Nat)
  /-- The statement `*(floatptr++)=((float)*(shortptr++))*(1.0f/32767.0f)` of the round
  `i`: one sample is converted and stored in cell `i` of `voice->data`. -/
  | store (i : Nat) (y : F32)
deriving DecidableEq, Repr

/-- The conversion loop with its stores written down: `n` iterations are left, `p` is the
byte offset of `shortptr` and `i` the index of `floatptr`. -/
def convertWrites (buf : List Byte) : Nat → Nat → Nat → List VoiceWrite × Outcome Unit
  | 0, _, _ => ([], .ok ())
  | n + 1, p, i =>
    match rdI16 buf p with
    | .ok x =>
      let r := convertWrites buf n (p + 2) (i + 1)
      (.store i (decodeSample x) :: r.1, r.2)
    | .raise e => ([], .raise e)
    | .undefined => ([], .undefined)

/-- The function `readsample` with its writes to the voice written down, in program order,
up to the point where the run ends. The first write is `voice->length=ftell(f)`. -/
def readsampleWrites (file : Option (List Byte)) : List VoiceWrite × Outcome Unit :=
  match file with
  | none => ([], .raise .cannotOpenRead)
  | some buf =>
    match checkHeader buf with
    | .raise e => ([.length buf.length], .raise e)
    | .undefined => ([.length buf.length], .undefined)
    | .ok _ =>
      match rd32 buf 40 with
      | .raise e => ([.length buf.length], .raise e)
      | .undefined => ([.length buf.length], .undefined)
      | .ok datasize =>
        let length := datasize >>> 1
        let r := convertWrites buf length sizeof_wavhdr 0
        (.length buf.length :: .length length :: .alloc length :: r.1, r.2)

/-- The voice after one write. The field `data` lists the cells of `voice->data` that hold
a value: a fresh block has none, and the store in cell `i` keeps the cells below `i`. -/
def applyWrite (v : voice_t F32) : VoiceWrite → voice_t F32
  | .length n => { v with length := n }
  | .alloc _ => { v with data := [] }
  | .store i y => { v with data := v.data.take i ++ [y] }

/-- The voice after a list of writes. -/
def applyWrites (v : voice_t F32) (ws : List VoiceWrite) : voice_t F32 := ws.foldl applyWrite v

/-! ## `requencer_render`: reading the sample list -/

/-- One entry of `arg_samples` after `gethashitem`: the `:start` value as `FIX2INT`
returns it, and the file that `:filename` names. -/
structure Descriptor where
  start : Int
  file : Option (List Byte)

/-- The expression `start & ~0x03` on `int`. -/
def alignStart (start : Int) : Int :=
  toI32 (Nat.land (toU32 start) (toU32 (Int.lnot 0x03)))

/-- The loop over the sample list: `voices[i]` is filled in and `totalsamples` is the
running `MAX`. The sum `voices[i].start+voices[i].length` is a `long`, the comparison is
made in `long`, and the result is stored in an `unsigned int`. -/
def loadLoop : List Descriptor → Nat → Outcome (List (voice_t F32) × Nat)
  | [], totalsamples => .ok ([], totalsamples)
  | d :: ds, totalsamples =>
    let voice : voice_t F32 :=
      { active := 0, pos := 0, start := alignStart d.start, length := 0, data := [] }
    (readsample voice d.file).bind fun voice =>
    let totalsamples := toU32 (MAX (totalsamples : Int) (voice.start + voice.length))
    (loadLoop ds totalsamples).bind fun r =>
    .ok (voice :: r.1, r.2)


/-! ## `requencer_render`: mixing -/

/-- The output buffer `float *output`: `size` cells. -/
structure Buf (α : Type) where
  size : Nat
  cell : Nat → α

/-- The buffer after `ALLOC_N(float, totalsamples)` and `MEMZERO`. -/
def zeroBuf {α : Type} [Zero α] (totalsamples : Nat) : Buf α := ⟨totalsamples, fun _ => 0⟩

/-- The statement `*dst += *src` with `dst = output + a.1` and `src = data + a.2`. -/
def accumulate {α : Type} [Add α] (data : List α) (out : Buf α) (a : Int × Nat) :
    Outcome (Buf α) :=
  match data.get? a.2 with
  | none => .undefined
  | some x =>
    if 0 ≤ a.1 ∧ a.1 < out.size then
      .ok ⟨out.size, fun k => if (k : Int) = a.1 then out.cell k + x else out.cell k⟩
    else .undefined

/-- The pointer walk of the inner loop: `n` iterations, each using `dst` and `src` and
then incrementing both. -/
def walk : Nat → Int → Nat → List (Int × Nat)
  | 0, _, _ => []
  | n + 1, dst, src => (dst, src) :: walk n (dst + 1) (src + 1)

/-- The accesses of the inner loop `for (int j=voices[i].start;j<end;++j)` for one voice,
with `int end=voices[i].start+voices[i].length`, `dst=output+voices[i].start` and
`src=voices[i].data`. The loop runs `end - start` times when that is positive. -/
def voiceAccesses {α : Type} (v : voice_t α) : List (Int × Nat) :=
  let end_ := toI32 (v.start + v.length)
  walk (end_ - v.start).toNat v.start 0

/-- The accesses of an inner loop, carried out in order. -/
def runAccesses {α : Type} [Add α] (data : List α) :
    List (Int × Nat) → Buf α → Outcome (Buf α)
  | [], out => .ok out
  | a :: as, out => (accumulate data out a).bind fun out => runAccesses data as out

/-- The inner loop for one voice. -/
def mixVoice {α : Type} [Add α] (out : Buf α) (v : voice_t α) : Outcome (Buf α) :=
  runAccesses v.data (voiceAccesses v) out

/-- The loop `for (int i=0;i<numsamples;++i)` that renders each sample. -/
def mixLoop {α : Type} [Add α] : List (voice_t α) → Buf α → Outcome (Buf α)
  | [], out => .ok out
  | v :: vs, out => (mixVoice out v).bind fun out => mixLoop vs out

/-! ## `requencer_render`: conversion to signed shorts -/

/-- The conversion `(int16_t)(x*32767.0f)` of one mixed sample. The product is a
binary32 product. The cast drops the fraction, takes the integral part as an `int` and
keeps its low 16 bits. When the integral part does not fit an `int`, C leaves the result
undefined and the targets disagree on it. -/
def quantizeSample (x : F32) : Outcome Int :=
  let t := f32trunc (f32mul x (f32ofInt 32767))
  if -2147483648 ≤ t ∧ t ≤ 2147483647 then .ok (toI16 t) else .undefined

/-! ## `requencer_render`: the conversion in place, on bytes -/

/-- The binary32 number with the bit pattern `w`: sign bit 31, exponent bits 30 to 23,
fraction bits 22 to 0. The patterns of the infinities and the NaNs have none. -/
def f32ofBits (w : Nat) : Option F32 :=
  let e := w / 8388608 % 256
  let m := w % 8388608
  if e = 255 then none
  else
    let mag : Int := if e = 0 then (m : Int) else ((8388608 + m : Nat) : Int) * pow2 (e - 1)
    some ⟨if w / 2147483648 % 2 = 1 then -mag else mag⟩

/-- Read of the little-endian bit pattern of the `float` at byte offset `off` of a block. -/
def loadBits (m : Buf Byte) (off : Nat) : Outcome Nat :=
  if off + 4 ≤ m.size then
    .ok ((m.cell off).val + 256 * (m.cell (off + 1)).val + 65536 * (m.cell (off + 2)).val +
      16777216 * (m.cell (off + 3)).val)
  else .undefined

/-- The conversion `(int16_t)(x*32767.0f)` of the float with the bit pattern `w`. The
product of an infinity or a NaN is an infinity or a NaN, and its conversion to an integer
type is undefined. -/
def quantizeBits (w : Nat) : Outcome Int :=
  match f32ofBits w with
  | some x => quantizeSample x
  | none => .undefined

/-- Write of an `int16_t` at byte offset `off` of a block (little-endian, two's
complement). -/
def storeI16 (m : Buf Byte) (off : Nat) (x : Int) : Outcome (Buf Byte) :=
  if off + 2 ≤ m.size then
    .ok ⟨m.size, fun k =>
      if k = off then Fin.ofNat (x % 65536).toNat
      else if k = off + 1 then Fin.ofNat ((x % 65536).toNat / 256)
      else m.cell k⟩
  else .undefined

/-- The loop "convert to signed shorts in-place" on the bytes of `output`: `floatptr` and
`shortptr` point into the same block, round `i` reads the float at byte `4 * i` and then
writes the short at byte `2 * i`. `n` iterations are left; the counter `i` is an `int`. -/
def quantizeInPlace : Nat → Nat → Buf Byte → Outcome (Buf Byte)
  | 0, _, m => .ok m
  | n + 1, i, m =>
    (loadBits m (4 * i)).bind fun w =>
    (quantizeBits w).bind fun s =>
    (storeI16 m (2 * i) s).bind fun m =>
    if i + 1 < 2147483648 then quantizeInPlace n (i + 1) m else .undefined

/-- The `int16_t` at short index `i` of a block. -/
def shortAt (m : Buf Byte) (i : Nat) : Int :=
  toI16 (((m.cell (2 * i)).val + 256 * (m.cell (2 * i + 1)).val : Nat) : Int)

/-- The first `n` shorts of a block. -/
def shortsOf (m : Buf Byte) (n : Nat) : List Int := (List.range n).map (shortAt m)

/-- The conversion as the comparison has it: the same loop, but every float is read from
`copy`, an untouched copy of the block, and the shorts are collected in order. -/
def quantizeFromCopy (copy : Buf Byte) : Nat → Nat → Outcome (List Int)
  | 0, _ => .ok []
  | n + 1, i =>
    (loadBits copy (4 * i)).bind fun w =>
    (quantizeBits w).bind fun s =>
    if i + 1 < 2147483648 then
      (quantizeFromCopy copy n (i + 1)).bind fun rest => .ok (s :: rest)
    else .undefined

/-! ## `requencer_render`: feeding the encoder -/

/-- The loop `while (samplesleft>0)`: the calls to `lame_encode_buffer_interleaved`, each
as the pair of the offset of `ptr` from `output` (in floats) and the frame count
`MIN(samplesleft,4096)`. After a call, `ptr+=4096` and `samplesleft-=8192`. -/
def encodeLoop : Nat → Int → Nat → List (Nat × Int)
  | 0, _, _ => []
  | fuel + 1, samplesleft, ptr =>
    if samplesleft > 0 then
      (ptr, MIN samplesleft 4096) :: encodeLoop fuel (samplesleft - 8192) (ptr + 4096)
    else []

/-- The encoder calls of a render of `totalsamples` samples, from
`int samplesleft=totalsamples>>1` and `ptr=output`. The loop is given `totalsamples`
rounds, more than it uses. -/
def encodeCalls (totalsamples : Nat) : List (Nat × Int) :=
  encodeLoop totalsamples (toI32 (totalsamples >>> 1)) 0

/-- The 16-bit samples that one encoder call reads: `ptr` is cast to `short int*`, so a
float offset `p` is the short offset `2 * p`, and a stereo frame is two shorts. -/
def callSamples (shorts : List Int) (c : Nat × Int) : List Int :=
  (shorts.drop (2 * c.1)).take (2 * c.2.toNat)

/-- All 16-bit samples submitted to the encoder, in submission order. -/
def submitted (shorts : List Int) : List Int :=
  (encodeCalls shorts.length).flatMap (callSamples shorts)

/-! ## `requencer_render`: the whole function -/

/-- The loop "convert to signed shorts" on the cells of `output`: `n` iterations are left
and `i` is the loop counter, an `int`, so that `++i` is defined only below `2^31`. The
result lists the shorts in the order in which they are stored. -/
def quantizeLoop (output : Buf F32) : Nat → Nat → Outcome (List Int)
  | 0, _ => .ok []
  | n + 1, i =>
    if i < output.size then
      (quantizeSample (output.cell i)).bind fun s =>
      if i + 1 < 2147483648 then
        (quantizeLoop output n (i + 1)).bind fun rest => .ok (s :: rest)
      else .undefined
    else .undefined

/-- What the output file and the writes to it do: whether `fopen(filename,"w")` succeeds,
and whether the `k`-th `fwrite` writes all its bytes. -/
structure OutputEnv where
  opens : Bool
  written : Nat → Bool

/-- The `rb_raise` sites of the encoding part of `requencer_render`. -/
inductive OutErr
  | cannotOpenWrite
  | errorEncoding
deriving DecidableEq, Repr

/-- A call to the encoder. -/
inductive EncoderOp
  /-- The call `lame_encode_buffer_interleaved(lame,(short int*)ptr,frames,mp3buf,20480)`
  with `ptr` at the float offset `ptr` from `output`. -/
  | encode (ptr : Nat) (frames : Int)
  /-- The call `lame_encode_flush(lame,mp3buf,20480)`. -/
  | flush
deriving DecidableEq, Repr

/-- The encoder calls of the `while` loop and the flush, each followed by its `fwrite`:
`k` writes have been made. The run stops at the first write that fails. -/
def feedEncoder (env : OutputEnv) : List (Nat × Int) → Nat → List EncoderOp × Option OutErr
  | [], k => ([.flush], if env.written k then none else some .errorEncoding)
  | c :: cs, k =>
    if env.written k then
      let r := feedEncoder env cs (k + 1)
      (.encode c.1 c.2 :: r.1, r.2)
    else ([.encode c.1 c.2], some .errorEncoding)

/-- The part "encode to mp3" of `requencer_render`. -/
def encodeOutput (env : OutputEnv) (totalsamples : Nat) : List EncoderOp × Option OutErr :=
  if env.opens then feedEncoder env (encodeCalls totalsamples) 0
  else ([], some .cannotOpenWrite)

/-- What a run of `requencer_render` that gets to the encoding part has done: the total
length, the accesses of the mixing loop, the shorts stored by the conversion loop (one read
of a float and one write of a short each), the encoder calls, and the exception of the
encoding part if there is one. -/
structure Rendered where
  totalsamples : Nat
  mixAccesses : List (Int × Nat)
  shorts : List Int
  ops : List EncoderOp
  raised : Option OutErr
deriving DecidableEq, Repr

/-- The function `requencer_render` on the sample list `arg_samples`. -/
def requencer_render (env : OutputEnv) (arg_samples : List Descriptor) : Outcome Rendered :=
  (loadLoop arg_samples 0).bind fun r =>
  let voices := r.1
  let totalsamples := r.2
  (mixLoop voices (zeroBuf totalsamples)).bind fun output =>
  (quantizeLoop output totalsamples 0).bind fun shorts =>
  let o := encodeOutput env totalsamples
  .ok ⟨totalsamples, voices.flatMap voiceAccesses, shorts, o.1, o.2⟩

/-! ## Notions used by the statements -/

/-- The end of a placement on the timeline, `start + length`. -/
def voiceEnd {α : Type} (v : voice_t α) : Int := v.start + v.length

/-- The maximum of the placement ends, `0` for no placement. -/
def maxEnd {α : Type} (vs : List (voice_t α)) : Int := (vs.map voiceEnd).foldr max 0

/-- The voice that the sample-list loop builds for one descriptor. -/
def Loaded (d : Descriptor) (v : voice_t F32) : Prop :=
  readsample { active := 0, pos := 0, start := alignStart d.start, length := 0, data := [] }
    d.file = .ok v

/-- The placement covers index `k`: `start ≤ k < start + length`. -/
def covers {α : Type} (v : voice_t α) (k : Nat) : Prop :=
  v.start ≤ (k : Int) ∧ (k : Int) < v.start + v.length

instance {α : Type} (v : voice_t α) (k : Nat) : Decidable (covers v k) :=
  inferInstanceAs (Decidable (v.start ≤ (k : Int) ∧ (k : Int) < v.start + v.length))

/-- The samples that the placements covering `k` hold for index `k`, in placement order. -/
def contribs {α : Type} (k : Nat) (vs : List (voice_t α)) : List α :=
  vs.filterMap fun v => if covers v k then v.data.get? ((k : Int) - v.start).toNat else none

/-- The inner loop for the placement reaches index `k`: the placement covers `k` and its
end `start + length` is an `int`. -/
def reached {α : Type} (v : voice_t α) (k : Nat) : Prop :=
  covers v k ∧ voiceEnd v < 2147483648

instance {α : Type} (v : voice_t α) (k : Nat) : Decidable (reached v k) :=
  inferInstanceAs (Decidable (covers v k ∧ voiceEnd v < 2147483648))

/-- The samples that the placements reaching `k` hold for index `k`, in placement order. -/
def mixed {α : Type} (k : Nat) (vs : List (voice_t α)) : List α :=
  vs.filterMap fun v => if reached v k then v.data.get? ((k : Int) - v.start).toNat else none

/-- A placement as the sample-list loop leaves it, for an output buffer of `size` cells. -/
def Fits {α : Type} (size : Nat) (v : voice_t α) : Prop :=
  0 ≤ v.start ∧ v.start < 2147483648 ∧ 0 ≤ v.length ∧ v.length < 2147483648 ∧
    (v.data.length : Int) = v.length ∧ v.start + v.length ≤ (size : Int)

instance {α : Type} (size : Nat) (v : voice_t α) : Decidable (Fits size v) :=
  inferInstanceAs (Decidable (0 ≤ v.start ∧ v.start < 2147483648 ∧ 0 ≤ v.length ∧
    v.length < 2147483648 ∧ (v.data.length : Int) = v.length ∧
    v.start + v.length ≤ (size : Int)))

/-- The sum of a list of samples, added one by one from the left onto `init`. -/
def sumFrom {α : Type} [Add α] (init : α) (xs : List α) : α := xs.foldl (· + ·) init

/-- The unsigned little-endian 16-bit value at offset `off` of a buffer. -/
def u16at (buf : List Byte) (off : Nat) : Nat :=
  (buf.getD off 0).val + 256 * (buf.getD (off + 1) 0).val

/-- The unsigned little-endian 32-bit value at offset `off` of a buffer. -/
def u32at (buf : List Byte) (off : Nat) : Nat :=
  (buf.getD off 0).val + 256 * (buf.getD (off + 1) 0).val +
    65536 * (buf.getD (off + 2) 0).val + 16777216 * (buf.getD (off + 3) 0).val

/-- The signed little-endian 16-bit value at offset `off` of a buffer. -/
def i16at (buf : List Byte) (off : Nat) : Int :=
  if u16at buf off < 32768 then (u16at buf off : Int) else (u16at buf off : Int) - 65536

/-- The four bytes at offset `off` of a buffer. -/
def tagAt (buf : List Byte) (off : Nat) : List Byte := (buf.drop off).take 4

/-- The tags of the canonical header: `RIFF`, `WAVE`, `fmt ` and `data` at the byte
offsets 0, 8, 12 and 36. -/
def TagsOk (buf : List Byte) : Prop :=
  tagAt buf 0 = [0x52, 0x49, 0x46, 0x46] ∧ tagAt buf 8 = [0x57, 0x41, 0x56, 0x45] ∧
    tagAt buf 12 = [0x66, 0x6d, 0x74, 0x20] ∧ tagAt buf 36 = [0x64, 0x61, 0x74, 0x61]

instance (buf : List Byte) : Decidable (TagsOk buf) :=
  inferInstanceAs (Decidable (tagAt buf 0 = [0x52, 0x49, 0x46, 0x46] ∧
    tagAt buf 8 = [0x57, 0x41, 0x56, 0x45] ∧ tagAt buf 12 = [0x66, 0x6d, 0x74, 0x20] ∧
    tagAt buf 36 = [0x64, 0x61, 0x74, 0x61]))

/-- The format fields of a 44100 Hz 16-bit stereo PCM header: `audioformat = 1`,
`numchannels = 2`, `samplerate = 44100`, `bitspersample = 16`, `byterate = 176400` and
`blockalign = 4`. -/
def FormatOk (buf : List Byte) : Prop :=
  u16at buf 20 = 1 ∧ u16at buf 22 = 2 ∧ u32at buf 24 = 44100 ∧ u16at buf 34 = 16 ∧
    u32at buf 28 = 176400 ∧ u16at buf 32 = 4

instance (buf : List Byte) : Decidable (FormatOk buf) :=
  inferInstanceAs (Decidable (u16at buf 20 = 1 ∧ u16at buf 22 = 2 ∧ u32at buf 24 = 44100 ∧
    u16at buf 34 = 16 ∧ u32at buf 28 = 176400 ∧ u16at buf 32 = 4))

/-- The exact value of a binary32 number. -/
def F32.toRat (a : F32) : ℚ := (a.units : ℚ) / 2 ^ 149

/-! ## Test fixtures -/

/-- The four bytes of a little-endian 32-bit value. -/
def le32 (v : Nat) : List Byte :=
  [Fin.ofNat v, Fin.ofNat (v / 256), Fin.ofNat (v / 65536), Fin.ofNat (v / 16777216)]

/-- The two bytes of a little-endian 16-bit value. -/
def le16 (v : Nat) : List Byte := [Fin.ofNat v, Fin.ofNat (v / 256)]

/-- A 44-byte header with the given format fields, declaring `datasize` bytes of data. -/
def wavHeaderWith (audioformat numchannels samplerate byterate blockalign bitspersample
    datasize : Nat) : List Byte :=
  [0x52, 0x49, 0x46, 0x46] ++ le32 (36 + datasize) ++ [0x57, 0x41, 0x56, 0x45] ++
  [0x66, 0x6d, 0x74, 0x20] ++ le32 16 ++ le16 audioformat ++ le16 numchannels ++
  le32 samplerate ++ le32 byterate ++ le16 blockalign ++ le16 bitspersample ++
  [0x64, 0x61, 0x74, 0x61] ++ le32 datasize

/-- The canonical header of a 44100 Hz 16-bit stereo file. -/
def wavHeader (datasize : Nat) : List Byte := wavHeaderWith 1 2 44100 176400 4 16 datasize

/-- A complete file holding the given 16-bit samples. -/
def wavFile (samples : List Int) : List Byte :=
  wavHeader (2 * samples.length) ++ samples.flatMap fun x => le16 (x % 65536).toNat

/-- The schedule of the sizing example: a clip of 100 samples at start 0 and a clip of 50
samples at start 80. -/
def sizingSchedule : List Descriptor :=
  [⟨0, some (wavFile (List.replicate 100 1000))⟩, ⟨80, some (wavFile (List.replicate 50 (-3)))⟩]

/-- The voices that `sizingSchedule` loads. -/
def sizingVoices : List (voice_t F32) :=
  [⟨0, 0, 0, 100, List.replicate 100 (decodeSample 1000)⟩,
   ⟨0, 0, 80, 50, List.replicate 50 (decodeSample (-3))⟩]

/-- A schedule with one clip of four samples placed four cells before `2^31`. -/
def lateSchedule : List Descriptor := [⟨2147483644, some (wavFile [1000, 1000, 1000, 1000])⟩]

/-- The voice that `lateSchedule` loads. -/
def lateVoices : List (voice_t F32) := [⟨0, 0, 2147483644, 4, List.replicate 4 (decodeSample 1000)⟩]

/-- A schedule of three one-frame clips that all start at 0. -/
def tripleSchedule : List Descriptor :=
  [⟨0, some (wavFile [32767, 32767])⟩, ⟨0, some (wavFile [16, 16])⟩, ⟨0, some (wavFile [49, 49])⟩]

/-- The voices that `tripleSchedule` loads. -/
def tripleVoices : List (voice_t F32) :=
  [⟨0, 0, 0, 2, List.replicate 2 (decodeSample 32767)⟩,
   ⟨0, 0, 0, 2, List.replicate 2 (decodeSample 16)⟩,
   ⟨0, 0, 0, 2, List.replicate 2 (decodeSample 49)⟩]

/-- The voices of `tripleSchedule` in another order. -/
def tripleVoicesRotated : List (voice_t F32) :=
  [⟨0, 0, 0, 2, List.replicate 2 (decodeSample 16)⟩,
   ⟨0, 0, 0, 2, List.replicate 2 (decodeSample 49)⟩,
   ⟨0, 0, 0, 2, List.replicate 2 (decodeSample 32767)⟩]

/-- A voice before `readsample` fills it in. -/
def freshVoice : voice_t F32 := { active := 0, pos := 0, start := 0, length := 0, data := [] }

/-- A complete file of one stereo frame whose two samples are 513. -/
def frame513 : List Byte := wavFile [513, 513]

/-- A file that is only the canonical header, declaring four bytes of sample data. -/
def headerOnly : List Byte := wavHeader 4

/-- A quantized buffer of `n` samples whose sample `i` has the value `i`. -/
def ramp (n : Nat) : List Int := (List.range n).map Int.ofNat

/-- A file of 44100 samples of the constant value 0x4040: a clip of one second. -/
def toneFile : List Byte := wavHeader 88200 ++ List.replicate 88200 0x40

/-- The voice that `readsample` makes of `toneFile`, placed at `start`. -/
def toneVoice (start : Int) : voice_t F32 :=
  { active := 0, pos := 0, start := start, length := 44100,
    data := (List.range 44100).map fun i => decodeSample (i16at toneFile (44 + 2 * i)) }

/-- Two copies of the tone, requested at 0 and at 22050. -/
def toneSchedule : List Descriptor := [⟨0, some toneFile⟩, ⟨22050, some toneFile⟩]

/-- A file whose two samples are both the minimum, -32768. -/
def frameMin : List Byte := wavFile [-32768, -32768]


/-- A header that declares 22050 Hz and no data. -/
def header22050 : List Byte := wavHeaderWith 1 2 22050 88200 4 16 0

/-- A header that declares one channel and no data. -/
def headerMono : List Byte := wavHeaderWith 1 1 44100 88200 2 16 0

/-- A header that declares 8-bit samples and no data. -/
def header8bit : List Byte := wavHeaderWith 1 2 44100 88200 2 8 0

/-- An output file that opens and takes every write. -/
def goodOutput : OutputEnv := ⟨true, fun _ => true⟩

/-- A block of `bytes.length` bytes with the given content. -/
def blockOf (bytes : List Byte) : Buf Byte := ⟨bytes.length, fun k => bytes.getD k 0⟩

/-- The eight bytes of the two floats `1.0` and `-0.5`. -/
def twoFloats : Buf Byte := blockOf [0x00, 0x00, 0x80, 0x3f, 0x00, 0x00, 0x00, 0xbf]


/-- The value `0x1.0001fep-15`, just below `1/32767`. -/
def nearStep : F32 := ⟨8388863 * pow2 111⟩


/-! # Theorems -/

/-! ## General lemmas -/

theorem Outcome.bind_eq_ok {β γ : Type} {x : Outcome β} {f : β → Outcome γ} {c : γ} :
    x.bind f = .ok c ↔ ∃ a, x = .ok a ∧ f a = .ok c := by
  cases x <;> simp [Outcome.bind]

theorem land_mask (m : Nat) (hm : m < 2 ^ 32) : Nat.land m 4294967292 = m / 4 * 4 := by
  apply Nat.eq_of_testBit_eq
  intro i
  show (m &&& 4294967292).testBit i = _
  rw [Nat.testBit_and]
  have h4 : m / 4 * 4 = (m >>> 2) <<< 2 := by
    rw [Nat.shiftRight_eq_div_pow, Nat.shiftLeft_eq]
  rw [h4, Nat.testBit_shiftLeft, Nat.testBit_shiftRight]
  have hmask : (4294967292 : Nat) = (2 ^ 30 - 1) <<< 2 := by decide
  rw [hmask, Nat.testBit_shiftLeft, Nat.testBit_two_pow_sub_one]
  by_cases h2 : 2 ≤ i
  · have e : 2 + (i - 2) = i := by omega
    simp only [h2, ge_iff_le, decide_True, Bool.true_and, e]
    by_cases h3 : i - 2 < 30
    · simp [h3]
    · simp only [h3, decide_False, Bool.and_false]
      symm
      apply Nat.testBit_lt_two_pow
      calc m < 2 ^ 32 := hm
        _ ≤ 2 ^ i := Nat.pow_le_pow_right (by norm_num) (by omega)
  · simp [h2]

theorem alignStart_eq (s : Int) (hs : 0 ≤ s) (hi : s < 2147483648) :
    alignStart s = s / 4 * 4 := by
  obtain ⟨m, rfl⟩ := Int.eq_ofNat_of_zero_le hs
  have hm : m < 2 ^ 32 := by omega
  have hu : toU32 (m : Int) = m := by
    unfold toU32; omega
  have hn : toU32 (Int.lnot 3) = 4294967292 := by decide
  unfold alignStart
  rw [hu, hn, land_mask m hm]
  unfold toI32 toU32
  have : ((m / 4 * 4 : Nat) : Int) = (m : Int) / 4 * 4 := by push_cast; rfl
  rw [this]
  omega

theorem rd8_lt {buf : List Byte} {off v : Nat} (h : rd8 buf off = .ok v) : v < 256 := by
  unfold rd8 at h
  split at h
  · rename_i b _
    cases h
    exact b.isLt
  · cases h

theorem rd16_lt {buf : List Byte} {off v : Nat} (h : rd16 buf off = .ok v) : v < 65536 := by
  unfold rd16 at h
  simp only [Outcome.bind_eq_ok] at h
  obtain ⟨b0, h0, b1, h1, h⟩ := h
  cases h
  have := rd8_lt h0
  have := rd8_lt h1
  omega

theorem rd32_lt {buf : List Byte} {off v : Nat} (h : rd32 buf off = .ok v) :
    v < 4294967296 := by
  unfold rd32 at h
  simp only [Outcome.bind_eq_ok] at h
  obtain ⟨b0, h0, b1, h1, b2, h2, b3, h3, h⟩ := h
  cases h
  have := rd8_lt h0
  have := rd8_lt h1
  have := rd8_lt h2
  have := rd8_lt h3
  omega

theorem convertLoop_length {buf : List Byte} {n p : Nat} {data : List F32}
    (h : convertLoop buf n p = .ok data) : data.length = n := by
  induction n generalizing p data with
  | zero =>
    simp only [convertLoop] at h
    cases h
    rfl
  | succ n ih =>
    simp only [convertLoop, Outcome.bind_eq_ok] at h
    obtain ⟨x, _, rest, hr, h⟩ := h
    cases h
    simp [ih hr]

theorem readsample_ok {v v1 : voice_t F32} {file : Option (List Byte)}
    (h : readsample v file = .ok v1) :
    ∃ buf datasize, file = some buf ∧ checkHeader buf = .ok () ∧
      rd32 buf 40 = .ok datasize ∧
      convertLoop buf (datasize >>> 1) sizeof_wavhdr = .ok v1.data ∧
      v1 = { v with length := ((datasize >>> 1 : Nat) : Int), data := v1.data } := by
  unfold readsample at h
  split at h
  · cases h
  · rename_i buf
    simp only [Outcome.bind_eq_ok] at h
    obtain ⟨u, hc, datasize, hd, data, hl, h⟩ := h
    cases h
    exact ⟨buf, datasize, rfl, hc, hd, hl, rfl⟩

/-- What the sample-list loop guarantees of a loaded voice. -/
theorem Loaded.facts {d : Descriptor} {v : voice_t F32} (h : Loaded d v) :
    v.start = alignStart d.start ∧ 0 ≤ v.length ∧ v.length < 2147483648 ∧
      (v.data.length : Int) = v.length := by
  obtain ⟨buf, datasize, _, _, hd, hl, hv⟩ := readsample_ok h
  have hlt := rd32_lt hd
  have hlen := convertLoop_length hl
  rw [hv]
  simp only [Nat.shiftRight_eq_div_pow] at hlen ⊢
  refine ⟨trivial, ?_, ?_, ?_⟩
  · omega
  · omega
  · rw [hlen]

theorem loadLoop_ok {ds : List Descriptor} {t : Nat} {vs : List (voice_t F32)} {total : Nat}
    (h : loadLoop ds t = .ok (vs, total)) : List.Forall₂ Loaded ds vs := by
  induction ds generalizing t vs total with
  | nil =>
    simp only [loadLoop] at h
    cases h
    exact List.Forall₂.nil
  | cons d ds ih =>
    simp only [loadLoop, Outcome.bind_eq_ok] at h
    obtain ⟨v, hv, r, hr, h⟩ := h
    cases h
    exact List.Forall₂.cons hv (ih hr)

theorem loadLoop_total {ds : List Descriptor} {t : Nat} {vs : List (voice_t F32)} {total : Nat}
    (hst : ∀ d ∈ ds, 0 ≤ d.start ∧ d.start < 2147483648) (ht : t < 4294967296)
    (h : loadLoop ds t = .ok (vs, total)) : (total : Int) = max (t : Int) (maxEnd vs) := by
  induction ds generalizing t vs total with
  | nil =>
    simp only [loadLoop] at h
    cases h
    simp [maxEnd]
  | cons d ds ih =>
    simp only [loadLoop, Outcome.bind_eq_ok] at h
    obtain ⟨v, hv, r, hr, h⟩ := h
    cases h
    obtain ⟨h1, h2, h3, _⟩ := Loaded.facts hv
    obtain ⟨hd0, hd1⟩ := hst d (List.mem_cons_self _ _)
    have ha := alignStart_eq d.start hd0 hd1
    rw [← h1] at ha
    have hm : toU32 (MAX (t : Int) (v.start + v.length)) = (max (t : Int) (v.start + v.length)).toNat := by
      unfold toU32 MAX
      split <;> omega
    have := ih (fun d hd => hst d (List.mem_cons_of_mem _ hd)) (by rw [hm]; omega) hr
    rw [this, hm]
    simp only [maxEnd, List.map_cons, List.foldr_cons, voiceEnd]
    omega

theorem maxEnd_ge {α : Type} {vs : List (voice_t α)} {v : voice_t α} (h : v ∈ vs) :
    voiceEnd v ≤ maxEnd vs := by
  induction vs with
  | nil => cases h
  | cons w ws ih =>
    simp only [maxEnd, List.map_cons, List.foldr_cons]
    rcases List.mem_cons.1 h with rfl | h
    · exact le_max_left _ _
    · exact le_trans (ih h) (le_max_right _ _)

theorem maxEnd_attained {α : Type} {vs : List (voice_t α)} (h : vs ≠ [])
    (hpos : ∀ v ∈ vs, 0 ≤ voiceEnd v) : ∃ v ∈ vs, voiceEnd v = maxEnd vs := by
  induction vs with
  | nil => exact absurd rfl h
  | cons w ws ih =>
    simp only [maxEnd, List.map_cons, List.foldr_cons]
    by_cases hw : ws = []
    · subst hw
      refine ⟨w, List.mem_cons_self _ _, ?_⟩
      have := hpos w (List.mem_cons_self _ _)
      simp only [List.map_nil, List.foldr_nil]
      omega
    · obtain ⟨v, hv, he⟩ := ih hw (fun v hv => hpos v (List.mem_cons_of_mem _ hv))
      rcases le_total (voiceEnd w) (maxEnd ws) with hle | hle
      · refine ⟨v, List.mem_cons_of_mem _ hv, ?_⟩
        rw [he]
        exact (max_eq_right hle).symm
      · exact ⟨w, List.mem_cons_self _ _, (max_eq_left hle).symm⟩

theorem maxEnd_nonneg {α : Type} (vs : List (voice_t α)) : 0 ≤ maxEnd vs := by
  induction vs with
  | nil => simp [maxEnd]
  | cons w ws ih =>
    simp only [maxEnd, List.map_cons, List.foldr_cons]
    exact le_max_of_le_right ih

/-- Facts about every voice of a loaded schedule with non-negative starts. -/
theorem loaded_facts {ds : List Descriptor} {vs : List (voice_t F32)}
    (hst : ∀ d ∈ ds, 0 ≤ d.start ∧ d.start < 2147483648) (h : List.Forall₂ Loaded ds vs) :
    ∀ v ∈ vs, 0 ≤ v.start ∧ v.start < 2147483648 ∧ v.start % 4 = 0 ∧ 0 ≤ v.length ∧
      v.length < 2147483648 ∧ (v.data.length : Int) = v.length := by
  induction h with
  | nil => intro v hv; cases hv
  | @cons d w ds ws hdw _ ih =>
    intro v hv
    rcases List.mem_cons.1 hv with rfl | hv
    · obtain ⟨h1, h2, h3, h4⟩ := Loaded.facts hdw
      obtain ⟨hd0, hd1⟩ := hst d (List.mem_cons_self _ _)
      have ha := alignStart_eq d.start hd0 hd1
      rw [← h1] at ha
      refine ⟨?_, ?_, ?_, h2, h3, h4⟩ <;> omega
    · exact ih (fun d hd => hst d (List.mem_cons_of_mem _ hd)) v hv

/-! ## Lemmas on binary32 rounding -/

theorem pow2_pos (d : Nat) : 0 < pow2 d := by
  unfold pow2
  exact_mod_cast Nat.two_pow_pos d

theorem pow2_add (a b : Nat) : pow2 (a + b) = pow2 a * pow2 b := by
  unfold pow2
  rw [Nat.pow_add]
  push_cast
  rfl

theorem bitLenAux_le_iff (fuel n k : Nat) (h : n ≤ fuel) :
    bitLenAux fuel n ≤ k ↔ n < 2 ^ k := by
  induction fuel generalizing n k with
  | zero =>
    have : n = 0 := by omega
    subst this
    simp [bitLenAux]
  | succ fuel ih =>
    unfold bitLenAux
    by_cases hn : n = 0
    · subst hn
      simp
    · simp only [hn, if_false]
      rcases k with _ | k
      · simp only [Nat.pow_zero]
        omega
      · have h2 : n / 2 ≤ fuel := by omega
        rw [Nat.add_le_add_iff_right, ih (n / 2) k h2, Nat.pow_succ]
        omega

theorem bitLen_le_iff (n : Int) (k : Nat) : bitLen n ≤ k ↔ n.natAbs < 2 ^ k :=
  bitLenAux_le_iff n.natAbs n.natAbs k (le_refl _)

theorem abs_lt_pow2_bitLen (n : Int) : -pow2 (bitLen n) < n ∧ n < pow2 (bitLen n) := by
  have := (bitLen_le_iff n (bitLen n)).1 (le_refl _)
  unfold pow2
  omega

/-- Rounding moves a value to one of the two neighbouring multiples. -/
theorem roundShift_cases (n : Int) (d : Nat) :
    roundShift n d = n / pow2 d ∨ roundShift n d = n / pow2 d + 1 := by
  unfold roundShift
  dsimp only
  split
  · exact Or.inl rfl
  · split
    · exact Or.inr rfl
    · split
      · exact Or.inl rfl
      · exact Or.inr rfl

/-- Rounding keeps a multiple of the step. -/
theorem roundShift_of_dvd (m : Int) (d : Nat) (h : pow2 d ∣ m) :
    roundShift m d * pow2 d = m := by
  have hp := pow2_pos d
  have hr : m % pow2 d = 0 := Int.emod_eq_zero_of_dvd h
  unfold roundShift
  dsimp only
  rw [hr]
  simp only [mul_zero, hp, if_true]
  exact Int.ediv_mul_cancel h

/-- The rounded significand has at most 24 digits, or is `2^24` in magnitude. -/
theorem roundShift_bound (n : Int) (d : Nat) (h : bitLen n ≤ d + 24) :
    -pow2 24 ≤ roundShift n d ∧ roundShift n d ≤ pow2 24 := by
  have hb := (bitLen_le_iff n (d + 24)).1 h
  have hp := pow2_pos d
  have h1 : -(pow2 d * pow2 24) < n ∧ n < pow2 d * pow2 24 := by
    rw [← pow2_add]
    unfold pow2
    omega
  have hq1 : n / pow2 d < pow2 24 := Int.ediv_lt_of_lt_mul hp (by
    rw [mul_comm]; exact h1.2)
  have hq2 : -pow2 24 ≤ n / pow2 d := by
    apply Int.le_ediv_of_mul_le hp
    have := h1.1
    rw [neg_mul, mul_comm]
    omega
  rcases roundShift_cases n d with h | h <;> rw [h] <;> constructor <;> omega

/-- Every result of binary32 rounding is a binary32 value. -/
theorem f32round_isRep (n : Int) (s : Nat) : (f32round n s).isRep := by
  unfold F32.isRep
  generalize hd : max (bitLen n - 24) s = d
  have hdef : f32round n s = ⟨roundShift n d * pow2 (d - s)⟩ := by
    unfold f32round
    simp only [hd]
  rw [hdef]
  generalize hr : roundShift n d = r
  generalize he : d - s = e
  have hbound : -pow2 24 ≤ r ∧ r ≤ pow2 24 := by
    rw [← hr]
    apply roundShift_bound
    omega
  have hpe := pow2_pos e
  have h24 : pow2 24 = 16777216 := by decide
  -- the digits of the result
  have hlen : bitLen (r * pow2 e) - 24 ≤ e ∨
      (bitLen (r * pow2 e) - 24 ≤ e + 24 ∧ pow2 (e + 24) ∣ r * pow2 e) := by
    by_cases hlt : -pow2 24 < r ∧ r < pow2 24
    · left
      have : bitLen (r * pow2 e) ≤ e + 24 := by
        rw [bitLen_le_iff]
        have h1 : (r * pow2 e).natAbs = r.natAbs * 2 ^ e := by
          rw [Int.natAbs_mul]
          rfl
        rw [h1, Nat.pow_add, Nat.mul_comm]
        exact (Nat.mul_lt_mul_left (Nat.two_pow_pos e)).2 (by omega)
      omega
    · right
      have hr2 : r = pow2 24 ∨ r = -pow2 24 := by omega
      constructor
      · have : bitLen (r * pow2 e) ≤ e + 25 := by
          rw [bitLen_le_iff]
          have h1 : (r * pow2 e).natAbs = r.natAbs * 2 ^ e := by
            rw [Int.natAbs_mul]
            rfl
          rw [h1, Nat.pow_add, Nat.mul_comm]
          exact (Nat.mul_lt_mul_left (Nat.two_pow_pos e)).2 (by omega)
        omega
      · rw [pow2_add, mul_comm (pow2 e)]
        rcases hr2 with h | h
        · rw [h]
        · rw [h, neg_mul]
          exact (dvd_neg).2 (dvd_refl _)
  have hdvd : pow2 (bitLen (r * pow2 e) - 24) ∣ r * pow2 e := by
    generalize bitLen (r * pow2 e) - 24 = d1 at hlen
    rcases hlen with h | ⟨h, hd2⟩
    · obtain ⟨c, hc⟩ := Nat.exists_eq_add_of_le h
      rw [hc, pow2_add]
      exact ⟨r * pow2 c, by ring⟩
    · obtain ⟨c, hc⟩ := Nat.exists_eq_add_of_le h
      refine dvd_trans ?_ hd2
      rw [hc, pow2_add]
      exact Dvd.intro _ rfl
  unfold f32round
  simp only [Nat.sub_zero, Nat.zero_le, max_eq_left]
  rw [roundShift_of_dvd _ _ hdvd]

/-- Rounding moves a value by at most half a step. -/
theorem roundShift_err (n : Int) (d : Nat) :
    -pow2 d ≤ 2 * (roundShift n d * pow2 d - n) ∧ 2 * (roundShift n d * pow2 d - n) ≤ pow2 d := by
  have hp := pow2_pos d
  have hdiv := Int.emod_add_ediv n (pow2 d)
  have hpos := Int.emod_nonneg n (ne_of_gt hp)
  have hlt := Int.emod_lt_of_pos n hp
  unfold roundShift
  dsimp only
  generalize n / pow2 d = q at *
  generalize n % pow2 d = r at *
  generalize pow2 d = P at *
  have e0 : q * P = P * q := mul_comm _ _
  have e1 : (q + 1) * P = P * q + P := by ring
  split
  · rw [e0]; constructor <;> linarith
  · split
    · rw [e1]; constructor <;> linarith
    · split
      · rw [e0]; constructor <;> linarith
      · rw [e1]; constructor <;> linarith

/-- The conversion `(float)x` is exact for an integer of at most 24 binary digits. -/
theorem f32ofInt_exact (x : Int) (h : -16777216 ≤ x ∧ x ≤ 16777216) :
    f32ofInt x = ⟨x * pow2 149⟩ := by
  have hb : bitLen (x * pow2 149) ≤ 149 + 25 := by
    rw [bitLen_le_iff]
    have h1 : (x * pow2 149).natAbs = x.natAbs * 2 ^ 149 := by
      rw [Int.natAbs_mul]
      rfl
    rw [h1, Nat.pow_add, Nat.mul_comm]
    exact (Nat.mul_lt_mul_left (Nat.two_pow_pos 149)).2 (by omega)
  have key : ∀ d1 : Nat, d1 ≤ 149 → pow2 d1 ∣ x * pow2 149 := by
    intro d1 h1
    obtain ⟨c, hc⟩ := Nat.exists_eq_add_of_le h1
    have e : pow2 149 = pow2 d1 * pow2 c := by rw [← pow2_add, ← hc]
    rw [e]
    exact ⟨x * pow2 c, by ring⟩
  have hdvd : pow2 (bitLen (x * pow2 149) - 24) ∣ x * pow2 149 := by
    by_cases hx : -16777216 < x ∧ x < 16777216
    · have hb2 : bitLen (x * pow2 149) ≤ 149 + 24 := by
        rw [bitLen_le_iff]
        have h1 : (x * pow2 149).natAbs = x.natAbs * 2 ^ 149 := by
          rw [Int.natAbs_mul]
          rfl
        rw [h1, Nat.pow_add, Nat.mul_comm]
        exact (Nat.mul_lt_mul_left (Nat.two_pow_pos 149)).2 (by omega)
      exact key _ (by omega)
    · have h24 : pow2 24 = 16777216 := by decide
      have hx2 : x = pow2 24 ∨ x = -pow2 24 := by omega
      have h150 : pow2 150 ∣ x * pow2 149 := by
        have e : pow2 150 = pow2 1 * pow2 149 := pow2_add 1 149
        have e2 : pow2 24 = pow2 23 * pow2 1 := pow2_add 23 1
        rw [e]
        rcases hx2 with h | h
        · rw [h, e2]; exact ⟨pow2 23, by ring⟩
        · rw [h, e2]; exact ⟨-pow2 23, by ring⟩
      by_cases hd : bitLen (x * pow2 149) - 24 ≤ 149
      · exact key _ hd
      · have hd2 : bitLen (x * pow2 149) - 24 = 150 := by omega
        rw [hd2]
        exact h150
  unfold f32ofInt f32round
  simp only [Nat.sub_zero, Nat.zero_le, max_eq_left]
  rw [roundShift_of_dvd _ _ hdvd]

/-! ## Lemmas on the mixing loop -/

theorem mem_walk {n : Nat} {dst : Int} {src : Nat} {a : Int × Nat} :
    a ∈ walk n dst src ↔ ∃ i, i < n ∧ a.1 = dst + (i : Int) ∧ a.2 = src + i := by
  induction n generalizing dst src with
  | zero => simp [walk]
  | succ n ih =>
    simp only [walk, List.mem_cons, ih]
    constructor
    · rintro (rfl | ⟨i, hi, h1, h2⟩)
      · exact ⟨0, by omega, by simp, by simp⟩
      · exact ⟨i + 1, by omega, by rw [h1]; push_cast; ring, by omega⟩
    · rintro ⟨i, hi, h1, h2⟩
      rcases i with _ | i
      · left
        ext
        · simpa using h1
        · simpa using h2
      · right
        exact ⟨i, by omega, by rw [h1]; push_cast; ring, by omega⟩

/-- The effect of an inner loop of `n` iterations whose accesses are all in bounds. -/
theorem runAccesses_walk {α : Type} [Add α] (data : List α) (n : Nat) (dst : Int) (src : Nat)
    (out : Buf α) (hd : 0 ≤ dst) (ho : dst + (n : Int) ≤ (out.size : Int))
    (hs : src + n ≤ data.length) :
    ∃ out1, runAccesses data (walk n dst src) out = .ok out1 ∧ out1.size = out.size ∧
      ∀ k : Nat,
        (dst ≤ (k : Int) ∧ (k : Int) < dst + (n : Int) →
          ∃ x, data.get? (src + ((k : Int) - dst).toNat) = some x ∧
            out1.cell k = out.cell k + x) ∧
        (¬ (dst ≤ (k : Int) ∧ (k : Int) < dst + (n : Int)) → out1.cell k = out.cell k) := by
  induction n generalizing dst src out with
  | zero =>
    refine ⟨out, rfl, rfl, fun k => ⟨fun h => ?_, fun _ => rfl⟩⟩
    simp only [Nat.cast_zero, add_zero] at h
    omega
  | succ n ih =>
    have hlt : src < data.length := by omega
    obtain ⟨x, hx⟩ : ∃ x, data.get? src = some x :=
      ⟨data.get ⟨src, hlt⟩, List.get?_eq_get hlt⟩
    have hin : 0 ≤ dst ∧ dst < (out.size : Int) := by
      push_cast at ho
      omega
    have hacc : accumulate data out (dst, src) =
        .ok ⟨out.size, fun k => if (k : Int) = dst then out.cell k + x else out.cell k⟩ := by
      simp only [accumulate, hx, hin, and_self, if_true]
    obtain ⟨out1, h1, h2, h3⟩ := ih (dst + 1) (src + 1)
      ⟨out.size, fun k => if (k : Int) = dst then out.cell k + x else out.cell k⟩
      (by omega) (by push_cast at ho ⊢; omega) (by omega)
    refine ⟨out1, ?_, h2, fun k => ⟨fun hk => ?_, fun hk => ?_⟩⟩
    · simp only [walk, runAccesses, hacc, Outcome.bind]
      exact h1
    · by_cases hkd : (k : Int) = dst
      · refine ⟨x, ?_, ?_⟩
        · rw [hkd]
          simpa using hx
        · rw [(h3 k).2 (by omega)]
          simp only [hkd, if_true]
      · obtain ⟨y, hy1, hy2⟩ := (h3 k).1 (by push_cast at hk ⊢; omega)
        refine ⟨y, ?_, ?_⟩
        · rw [← hy1]
          congr 1
          omega
        · rw [hy2]
          simp only [hkd, if_false]
    · rw [(h3 k).2 (by push_cast at hk ⊢; omega)]
      have : ¬ (k : Int) = dst := by
        push_cast at hk
        omega
      simp only [this, if_false]

/-- The iteration space of the inner loop of a placement that fits. -/
theorem voiceAccesses_eq {α : Type} {size : Nat} {v : voice_t α} (hf : Fits size v) :
    voiceAccesses v =
      walk (if voiceEnd v < 2147483648 then v.length.toNat else 0) v.start 0 := by
  obtain ⟨h1, h2, h3, h4, _, _⟩ := hf
  unfold voiceAccesses voiceEnd
  dsimp only
  congr 1
  unfold toI32 toU32
  split <;> split <;> omega

/-- The effect of the inner loop for a placement that fits the buffer. -/
theorem mixVoice_spec {α : Type} [Add α] (out : Buf α) (v : voice_t α)
    (hf : Fits out.size v) :
    ∃ out1, mixVoice out v = .ok out1 ∧ out1.size = out.size ∧
      ∀ k : Nat, out1.cell k = sumFrom (out.cell k) (mixed k [v]) := by
  have hacc := voiceAccesses_eq hf
  obtain ⟨h1, h2, h3, h4, h5, h6⟩ := hf
  unfold mixVoice
  rw [hacc]
  by_cases hov : voiceEnd v < 2147483648
  · simp only [hov, if_true]
    obtain ⟨out1, ha, hb, hc⟩ := runAccesses_walk v.data v.length.toNat v.start 0 out h1
      (by omega) (by omega)
    refine ⟨out1, ha, hb, fun k => ?_⟩
    by_cases hk : covers v k
    · obtain ⟨x, hx1, hx2⟩ := (hc k).1 (by unfold covers at hk; omega)
      simp only [Nat.zero_add] at hx1
      simp only [mixed, reached, hk, hov, and_self, if_true, List.filterMap_cons, hx1,
        List.filterMap_nil, sumFrom, List.foldl_cons, List.foldl_nil, hx2]
    · rw [(hc k).2 (by unfold covers at hk; omega)]
      simp [mixed, reached, hk, sumFrom]
  · simp only [hov, if_false]
    refine ⟨out, rfl, rfl, fun k => ?_⟩
    simp [mixed, reached, hov, sumFrom, walk]

theorem mixed_cons {α : Type} (k : Nat) (v : voice_t α) (vs : List (voice_t α)) :
    mixed k (v :: vs) = mixed k [v] ++ mixed k vs := by
  unfold mixed
  rw [← List.filterMap_append]
  rfl

theorem sumFrom_append {α : Type} [Add α] (init : α) (xs ys : List α) :
    sumFrom init (xs ++ ys) = sumFrom (sumFrom init xs) ys := by
  unfold sumFrom
  rw [List.foldl_append]

/-- The effect of the mixing loop over placements that fit the buffer: it ends normally,
and cell `k` receives, in placement order, the samples of the placements reaching `k`. -/
theorem mixLoop_spec {α : Type} [Add α] (vs : List (voice_t α)) (out : Buf α)
    (hf : ∀ v ∈ vs, Fits out.size v) :
    ∃ out1, mixLoop vs out = .ok out1 ∧ out1.size = out.size ∧
      ∀ k : Nat, out1.cell k = sumFrom (out.cell k) (mixed k vs) := by
  induction vs generalizing out with
  | nil => exact ⟨out, rfl, rfl, fun k => rfl⟩
  | cons v vs ih =>
    obtain ⟨o1, ha, hb, hc⟩ := mixVoice_spec out v (hf v (List.mem_cons_self _ _))
    obtain ⟨o2, hd, he, hg⟩ := ih o1 (fun w hw => by
      rw [hb]; exact hf w (List.mem_cons_of_mem _ hw))
    refine ⟨o2, ?_, by rw [he, hb], fun k => ?_⟩
    · simp only [mixLoop, ha, Outcome.bind]
      exact hd
    · rw [hg k, hc k, mixed_cons k v vs, sumFrom_append]

/-- The placements of a loaded schedule with non-negative starts fit the output buffer. -/
theorem loadLoop_fits {ds : List Descriptor} {vs : List (voice_t F32)} {total : Nat}
    (hst : ∀ d ∈ ds, 0 ≤ d.start ∧ d.start < 2147483648)
    (h : loadLoop ds 0 = .ok (vs, total)) : ∀ v ∈ vs, Fits total v := by
  intro v hv
  obtain ⟨h1, h2, _, h3, h4, h5⟩ := loaded_facts hst (loadLoop_ok h) v hv
  have ht := loadLoop_total hst (by decide) h
  have := maxEnd_ge hv
  have h0 := maxEnd_nonneg vs
  refine ⟨h1, h2, h3, h4, h5, ?_⟩
  rw [ht]
  unfold voiceEnd at this
  simp only [Nat.cast_zero]
  omega

/-! ## Evaluation of the fixtures -/

theorem sizingSchedule_starts : ∀ d ∈ sizingSchedule, 0 ≤ d.start ∧ d.start < 2147483648 := by
  decide

theorem sizingSchedule_loads : loadLoop sizingSchedule 0 = .ok (sizingVoices, 130) := by
  decide

/-! ## C1: alignment of the start -/

/-- C1: for every start `s` with `0 ≤ s < 2^31` (a non-negative `int`), `s & ~0x03` is
`floor(s / 4) * 4`; it is a multiple of 4, non-negative, at most `s`, and less than 4
below `s`. -/
theorem C1_alignStart_floor (s : Int) (hs : 0 ≤ s) (hi : s < 2147483648) :
    alignStart s = s / 4 * 4 ∧ 4 ∣ alignStart s ∧ 0 ≤ alignStart s ∧
      alignStart s ≤ s ∧ s - alignStart s < 4 := by
  rw [alignStart_eq s hs hi]
  refine ⟨rfl, Dvd.intro_left _ rfl, ?_, ?_, ?_⟩ <;> omega

/-- Instance of C1 at the start 22050, which is placed at 22048. -/
theorem C1_alignStart_floor_witness :
    (0 : Int) ≤ 22050 ∧ (22050 : Int) < 2147483648 ∧
      (alignStart 22050 = 22050 / 4 * 4 ∧ 4 ∣ alignStart 22050 ∧ 0 ≤ alignStart 22050 ∧
        alignStart 22050 ≤ 22050 ∧ 22050 - alignStart 22050 < 4) :=
  ⟨by decide, by decide, C1_alignStart_floor 22050 (by decide) (by decide)⟩

/-! ## C2: the total length -/

/-- C2: for every schedule with non-negative starts that loads, `totalsamples` is the
maximum over the placements of `alignedStart + sampleCount`: every placement ends at or
before it, and when there is a placement, one ends exactly there. Every placement starts at
the requested start rounded down to a multiple of 4. In particular, a clip of length 100 at
start 0 with a clip of length 50 at start 80 gives 130. -/
theorem C2_totalsamples_max (ds : List Descriptor) (vs : List (voice_t F32)) (total : Nat)
    (hst : ∀ d ∈ ds, 0 ≤ d.start ∧ d.start < 2147483648)
    (h : loadLoop ds 0 = .ok (vs, total)) :
    (total : Int) = maxEnd vs ∧
      (∀ v ∈ vs, v.start + v.length ≤ (total : Int)) ∧
      (vs ≠ [] → ∃ v ∈ vs, v.start + v.length = (total : Int)) ∧
      List.Forall₂ (fun d v => v.start = d.start / 4 * 4) ds vs ∧
      (∀ a b : voice_t F32, vs = [a, b] → a.start = 0 → a.length = 100 → b.start = 80 →
        b.length = 50 → total = 130) := by
  have hl := loadLoop_ok h
  have hf := loaded_facts hst hl
  have ht := loadLoop_total hst (by decide) h
  have h0 : (0 : Int) ≤ maxEnd vs := maxEnd_nonneg vs
  have hmax : (total : Int) = maxEnd vs := by
    rw [ht]; simp only [Nat.cast_zero]; exact max_eq_right h0
  refine ⟨hmax, ?_, ?_, ?_, ?_⟩
  · intro v hv
    rw [hmax]
    exact maxEnd_ge hv
  · intro hne
    rw [hmax]
    exact maxEnd_attained hne (fun v hv => by
      obtain ⟨h1, _, _, h2, _⟩ := hf v hv
      unfold voiceEnd; omega)
  · apply List.forall₂_iff_zip.2
    refine ⟨List.Forall₂.length_eq hl, ?_⟩
    intro d v hz
    have hd := hst d (List.of_mem_zip hz).1
    have := (Loaded.facts ((List.forall₂_iff_zip.1 hl).2 hz)).1
    rw [this]
    exact alignStart_eq d.start hd.1 hd.2
  · intro a b hvs ha0 ha1 hb0 hb1
    subst hvs
    have : ((total : Nat) : Int) = 130 := by
      rw [hmax]
      simp only [maxEnd, List.map_cons, List.map_nil, List.foldr_cons, List.foldr_nil, voiceEnd,
        ha0, ha1, hb0, hb1]
      decide
    exact_mod_cast this


/-- Instance of C2 at the sizing example: the two clips load and `totalsamples` is 130. -/
theorem C2_totalsamples_max_witness :
    (∀ d ∈ sizingSchedule, 0 ≤ d.start ∧ d.start < 2147483648) ∧
      loadLoop sizingSchedule 0 = .ok (sizingVoices, 130) ∧
      ((130 : Nat) : Int) = maxEnd sizingVoices :=
  ⟨sizingSchedule_starts, sizingSchedule_loads,
    (C2_totalsamples_max sizingSchedule sizingVoices 130 sizingSchedule_starts
      sizingSchedule_loads).1⟩

/-! ## C3: what the mixing loop leaves in each cell -/

theorem mixed_eq_contribs {α : Type} (k : Nat) (vs : List (voice_t α))
    (hend : ∀ v ∈ vs, v.start + v.length < 2147483648) : mixed k vs = contribs k vs := by
  unfold mixed contribs
  apply List.filterMap_congr
  intro v hv
  have := hend v hv
  simp only [reached, voiceEnd, this, and_true]

/-- C3 as stated fails: a clip of four samples at start `2^31 - 4` covers the cell
`2^31 - 4` of the output, yet the loop leaves that cell at zero, because `int end`
wraps. -/
theorem C3_counterexample :
    (∀ d ∈ lateSchedule, 0 ≤ d.start ∧ d.start < 2147483648) ∧
      loadLoop lateSchedule 0 = .ok (lateVoices, 2147483648) ∧
      mixLoop lateVoices (zeroBuf 2147483648) = .ok (zeroBuf 2147483648) ∧
      contribs 2147483644 lateVoices = [decodeSample 1000] ∧
      (zeroBuf 2147483648 : Buf F32).cell 2147483644 ≠
        sumFrom 0 (contribs 2147483644 lateVoices) :=
  ⟨by decide, by decide, rfl, by decide, by decide⟩

/-- C3, amended: for every schedule with non-negative starts that loads and whose
placements all end below `2^31`, the mixing loop ends normally on the zeroed buffer, and
each cell `k` holds the samples `p.samples[k - p.alignedStart]` of the placements `p` with
`p.alignedStart ≤ k < p.alignedStart + p.sampleCount`, added in placement order onto zero;
a cell that no placement covers stays zero. -/
theorem C3_mix_sum (ds : List Descriptor) (vs : List (voice_t F32)) (total : Nat)
    (hst : ∀ d ∈ ds, 0 ≤ d.start ∧ d.start < 2147483648)
    (h : loadLoop ds 0 = .ok (vs, total))
    (hend : ∀ v ∈ vs, v.start + v.length < 2147483648) :
    ∃ out, mixLoop vs (zeroBuf total) = .ok out ∧ out.size = total ∧
      ∀ k : Nat, out.cell k = sumFrom 0 (contribs k vs) ∧
        ((∀ v ∈ vs, ¬ covers v k) → out.cell k = 0) := by
  obtain ⟨out, h1, h2, h3⟩ := mixLoop_spec vs (zeroBuf total) (loadLoop_fits hst h)
  refine ⟨out, h1, h2, fun k => ?_⟩
  have hk : out.cell k = sumFrom 0 (contribs k vs) := by
    rw [h3 k, mixed_eq_contribs k vs hend]
    rfl
  refine ⟨hk, fun hno => ?_⟩
  rw [hk]
  have : contribs k vs = [] := by
    unfold contribs
    rw [List.filterMap_eq_nil_iff]
    intro v hv
    simp only [hno v hv, if_false]
  rw [this]
  rfl

/-- Instance of C3 at the sizing example, whose two clips overlap on the cells 80 to 99. -/
theorem C3_mix_sum_witness :
    (∀ d ∈ sizingSchedule, 0 ≤ d.start ∧ d.start < 2147483648) ∧
      loadLoop sizingSchedule 0 = .ok (sizingVoices, 130) ∧
      (∀ v ∈ sizingVoices, v.start + v.length < 2147483648) ∧
      contribs 90 sizingVoices = [decodeSample 1000, decodeSample (-3)] ∧
      ∃ out, mixLoop sizingVoices (zeroBuf 130) = .ok out ∧ out.size = 130 ∧
        ∀ k : Nat, out.cell k = sumFrom 0 (contribs k sizingVoices) ∧
          ((∀ v ∈ sizingVoices, ¬ covers v k) → out.cell k = 0) :=
  ⟨sizingSchedule_starts, sizingSchedule_loads, by decide, by decide,
    C3_mix_sum sizingSchedule sizingVoices 130 sizingSchedule_starts sizingSchedule_loads
      (by decide)⟩

/-! ## C4: the order of the placements -/

theorem f32_zero_add (a : F32) (h : a.isRep) : (0 : F32) + a = a := by
  show f32round (f32zero.units + a.units) 0 = a
  simp only [f32zero, zero_add]
  exact h

theorem f32_add_comm (a b : F32) : a + b = b + a := by
  show f32round (a.units + b.units) 0 = f32round (b.units + a.units) 0
  rw [add_comm]

theorem perm_pair {β : Type} {a b : β} {ys : List β} (h : [a, b].Perm ys) :
    ys = [a, b] ∨ ys = [b, a] := by
  have hl := h.length_eq
  match ys, hl with
  | [c, d], _ =>
    have ha : a ∈ [c, d] := h.subset (List.mem_cons_self _ _)
    simp only [List.mem_cons, List.mem_singleton, List.not_mem_nil, or_false] at ha
    rcases ha with rfl | rfl
    · have := List.perm_singleton.1 (List.Perm.cons_inv h).symm
      left
      rw [this]
    · have h2 : [a, b].Perm [a, c] := h.trans (List.Perm.swap _ _ _)
      have := List.perm_singleton.1 (List.Perm.cons_inv h2).symm
      have hc : c = b := by simpa using this
      right
      rw [hc]

/-- Up to two binary32 values add up to the same sum in either order. -/
theorem sumFrom_perm_le_two {xs ys : List F32} (hp : xs.Perm ys) (hl : xs.length ≤ 2)
    (hr : ∀ x ∈ xs, x.isRep) : sumFrom 0 xs = sumFrom 0 ys := by
  match xs, hl, hr, hp with
  | [], _, _, hp => rw [List.Perm.nil_eq hp]
  | [a], _, _, hp => rw [List.perm_singleton.1 hp.symm]
  | [a, b], _, hr, hp =>
    rcases perm_pair hp with rfl | rfl
    · rfl
    · have ha := hr a (List.mem_cons_self _ _)
      have hb := hr b (List.mem_cons_of_mem _ (List.mem_cons_self _ _))
      simp only [sumFrom, List.foldl_cons, List.foldl_nil]
      rw [f32_zero_add a ha, f32_zero_add b hb, f32_add_comm]

theorem convertLoop_isRep {buf : List Byte} {n p : Nat} {data : List F32}
    (h : convertLoop buf n p = .ok data) : ∀ y ∈ data, y.isRep := by
  induction n generalizing p data with
  | zero =>
    simp only [convertLoop] at h
    cases h
    intro y hy
    cases hy
  | succ n ih =>
    simp only [convertLoop, Outcome.bind_eq_ok] at h
    obtain ⟨x, _, rest, hr, h⟩ := h
    cases h
    intro y hy
    rcases List.mem_cons.1 hy with rfl | hy
    · exact f32round_isRep _ _
    · exact ih hr y hy

theorem loaded_isRep {ds : List Descriptor} {vs : List (voice_t F32)}
    (h : List.Forall₂ Loaded ds vs) : ∀ v ∈ vs, ∀ y ∈ v.data, y.isRep := by
  induction h with
  | nil => intro v hv; cases hv
  | @cons d w ds ws hdw _ ih =>
    intro v hv
    rcases List.mem_cons.1 hv with rfl | hv
    · obtain ⟨buf, datasize, _, _, _, hl, _⟩ := readsample_ok hdw
      exact convertLoop_isRep hl
    · exact ih v hv

theorem mixed_length_le {α : Type} (k : Nat) (vs : List (voice_t α)) :
    (mixed k vs).length ≤ vs.countP (fun v => decide (covers v k)) := by
  induction vs with
  | nil => simp [mixed]
  | cons v vs ih =>
    rw [mixed_cons, List.length_append, List.countP_cons]
    have h1 : (mixed k [v]).length ≤ if decide (covers v k) = true then 1 else 0 := by
      unfold mixed reached
      by_cases hc : covers v k
      · simp only [hc, true_and, decide_True, if_true]
        exact List.length_filterMap_le _ _
      · simp [hc]
    omega

theorem mem_mixed {α : Type} {k : Nat} {vs : List (voice_t α)} {y : α} (h : y ∈ mixed k vs) :
    ∃ v ∈ vs, y ∈ v.data := by
  unfold mixed at h
  obtain ⟨v, hv, hy⟩ := List.mem_filterMap.1 h
  refine ⟨v, hv, ?_⟩
  split at hy
  · exact List.get?_mem hy
  · cases hy

/-- C4 as stated fails: three clips that start at 0, mixed in the order given and in a
rotated order, leave different values in cell 0: `8405248 / 2^23` (1.001983642578125) for
the order 32767, 16, 49 and `8405249 / 2^23` for the order 16, 49, 32767. -/
theorem C4_counterexample :
    loadLoop tripleSchedule 0 = .ok (tripleVoices, 2) ∧
      tripleVoices.Perm tripleVoicesRotated ∧
      ∃ out out1, mixLoop tripleVoices (zeroBuf 2) = .ok out ∧
        mixLoop tripleVoicesRotated (zeroBuf 2) = .ok out1 ∧ out.cell 0 ≠ out1.cell 0 ∧
        out.cell 0 = ⟨8405248 * pow2 126⟩ ∧ out1.cell 0 = ⟨8405249 * pow2 126⟩ := by
  refine ⟨by decide, by decide, ?_⟩
  have hf : ∀ v ∈ tripleVoices, Fits (zeroBuf 2 : Buf F32).size v := by decide
  have hf1 : ∀ v ∈ tripleVoicesRotated, Fits (zeroBuf 2 : Buf F32).size v := by decide
  obtain ⟨out, h1, _, h3⟩ := mixLoop_spec tripleVoices (zeroBuf 2) hf
  obtain ⟨out1, h4, _, h6⟩ := mixLoop_spec tripleVoicesRotated (zeroBuf 2) hf1
  refine ⟨out, out1, h1, h4, ?_, ?_, ?_⟩
  · rw [h3 0, h6 0]
    decide
  · rw [h3 0]
    decide
  · rw [h6 0]
    decide

/-- C4, amended: for every schedule with non-negative starts that loads and every
permutation of its placements, the mixing loop ends normally on both orders, and the two
output buffers hold the same value in every cell that at most two placements cover. -/
theorem C4_mix_perm (ds : List Descriptor) (vs vs1 : List (voice_t F32)) (total : Nat)
    (hst : ∀ d ∈ ds, 0 ≤ d.start ∧ d.start < 2147483648)
    (h : loadLoop ds 0 = .ok (vs, total)) (hp : vs.Perm vs1) :
    ∃ out out1, mixLoop vs (zeroBuf total) = .ok out ∧
      mixLoop vs1 (zeroBuf total) = .ok out1 ∧ out.size = total ∧ out1.size = total ∧
      ∀ k : Nat, vs.countP (fun v => decide (covers v k)) ≤ 2 → out.cell k = out1.cell k := by
  have hf := loadLoop_fits hst h
  have hf1 : ∀ v ∈ vs1, Fits total v := fun v hv => hf v (hp.mem_iff.2 hv)
  obtain ⟨out, h1, h2, h3⟩ := mixLoop_spec vs (zeroBuf total) hf
  obtain ⟨out1, h4, h5, h6⟩ := mixLoop_spec vs1 (zeroBuf total) hf1
  refine ⟨out, out1, h1, h4, h2, h5, fun k hk => ?_⟩
  rw [h3 k, h6 k]
  apply sumFrom_perm_le_two (hp.filterMap _) (le_trans (mixed_length_le k vs) hk)
  intro y hy
  obtain ⟨v, hv, hyv⟩ := mem_mixed hy
  exact loaded_isRep (loadLoop_ok h) v hv y hyv

/-- Instance of C4 at the sizing example and its two clips in reverse order. -/
theorem C4_mix_perm_witness :
    (∀ d ∈ sizingSchedule, 0 ≤ d.start ∧ d.start < 2147483648) ∧
      loadLoop sizingSchedule 0 = .ok (sizingVoices, 130) ∧
      sizingVoices.Perm sizingVoices.reverse ∧
      ∃ out out1, mixLoop sizingVoices (zeroBuf 130) = .ok out ∧
        mixLoop sizingVoices.reverse (zeroBuf 130) = .ok out1 ∧ out.size = 130 ∧
        out1.size = 130 ∧
        ∀ k : Nat, sizingVoices.countP (fun v => decide (covers v k)) ≤ 2 →
          out.cell k = out1.cell k :=
  ⟨sizingSchedule_starts, sizingSchedule_loads, (List.reverse_perm _).symm,
    C4_mix_perm sizingSchedule sizingVoices sizingVoices.reverse 130 sizingSchedule_starts
      sizingSchedule_loads (List.reverse_perm _).symm⟩

/-! ## C5: the accesses of the mixing loop -/

/-- C5: for every schedule with non-negative starts that loads, every access of the
mixing loop for a placement writes a cell in `[alignedStart, alignedStart + sampleCount)`
and reads the clip at an index in `[0, sampleCount)`, every such range lies in
`[0, totalsamples)`, and the loop ends normally: no access leaves the output buffer or the
clip data. -/
theorem C5_mix_in_bounds (ds : List Descriptor) (vs : List (voice_t F32)) (total : Nat)
    (hst : ∀ d ∈ ds, 0 ≤ d.start ∧ d.start < 2147483648)
    (h : loadLoop ds 0 = .ok (vs, total)) :
    (∀ v ∈ vs, ∀ a ∈ voiceAccesses v,
        v.start ≤ a.1 ∧ a.1 < v.start + v.length ∧ a.1 < (total : Int) ∧
          (a.2 : Int) < v.length ∧ a.2 < v.data.length) ∧
      (∀ v ∈ vs, 0 ≤ v.start ∧ v.start + v.length ≤ (total : Int)) ∧
      ∃ out, mixLoop vs (zeroBuf total) = .ok out ∧ out.size = total := by
  have hf := loadLoop_fits hst h
  refine ⟨fun v hv a ha => ?_, fun v hv => ⟨(hf v hv).1, (hf v hv).2.2.2.2.2⟩, ?_⟩
  · rw [voiceAccesses_eq (hf v hv)] at ha
    obtain ⟨h1, h2, h3, h4, h5, h6⟩ := hf v hv
    obtain ⟨i, hi, ha1, ha2⟩ := mem_walk.1 ha
    split at hi
    · rw [ha1, ha2]
      omega
    · omega
  · obtain ⟨out, h1, h2, _⟩ := mixLoop_spec vs (zeroBuf total) hf
    exact ⟨out, h1, h2⟩

/-- Instance of C5 at the sizing example. -/
theorem C5_mix_in_bounds_witness :
    (∀ d ∈ sizingSchedule, 0 ≤ d.start ∧ d.start < 2147483648) ∧
      loadLoop sizingSchedule 0 = .ok (sizingVoices, 130) ∧
      (∀ v ∈ sizingVoices, 0 ≤ v.start ∧ v.start + v.length ≤ ((130 : Nat) : Int)) :=
  ⟨sizingSchedule_starts, sizingSchedule_loads,
    (C5_mix_in_bounds sizingSchedule sizingVoices 130 sizingSchedule_starts
      sizingSchedule_loads).2.1⟩

/-! ## C6: header validation -/

theorem rd8_eq {buf : List Byte} {off : Nat} (h : off < buf.length) :
    rd8 buf off = .ok (buf.getD off 0).val := by
  unfold rd8
  rw [List.get?_eq_getElem?, List.getD_eq_getElem?_getD, List.getElem?_eq_getElem h]
  rfl

theorem rd16_eq {buf : List Byte} {off : Nat} (h : off + 2 ≤ buf.length) :
    rd16 buf off = .ok (u16at buf off) := by
  unfold rd16 u16at
  rw [rd8_eq (by omega), rd8_eq (by omega : off + 1 < buf.length)]
  rfl

theorem rd32_eq {buf : List Byte} {off : Nat} (h : off + 4 ≤ buf.length) :
    rd32 buf off = .ok (u32at buf off) := by
  unfold rd32 u32at
  rw [rd8_eq (by omega), rd8_eq (by omega : off + 1 < buf.length),
    rd8_eq (by omega : off + 2 < buf.length), rd8_eq (by omega : off + 3 < buf.length)]
  rfl

theorem tagAt_eq {buf : List Byte} {off : Nat} (h : off + 4 ≤ buf.length) :
    tagAt buf off =
      [buf.getD off 0, buf.getD (off + 1) 0, buf.getD (off + 2) 0, buf.getD (off + 3) 0] := by
  unfold tagAt
  rw [List.drop_eq_getElem_cons (by omega : off < buf.length),
    List.drop_eq_getElem_cons (by omega : off + 1 < buf.length),
    List.drop_eq_getElem_cons (by omega : off + 1 + 1 < buf.length),
    List.drop_eq_getElem_cons (by omega : off + 1 + 1 + 1 < buf.length),
    List.getD_eq_getElem _ _ (by omega : off < buf.length),
    List.getD_eq_getElem _ _ (by omega : off + 1 < buf.length),
    List.getD_eq_getElem _ _ (by omega : off + 2 < buf.length),
    List.getD_eq_getElem _ _ (by omega : off + 3 < buf.length)]
  rfl

/-- A tag comparison on the little-endian word is a comparison of the four bytes. -/
theorem tag_iff (buf : List Byte) (off : Nat) (h : off + 4 ≤ buf.length)
    (b0 b1 b2 b3 : Byte) :
    u32at buf off = b0.val + 256 * b1.val + 65536 * b2.val + 16777216 * b3.val ↔
      tagAt buf off = [b0, b1, b2, b3] := by
  rw [tagAt_eq h]
  unfold u32at
  simp only [List.cons.injEq, and_true, Fin.ext_iff]
  have h0 := (buf.getD off 0).isLt
  have h1 := (buf.getD (off + 1) 0).isLt
  have h2 := (buf.getD (off + 2) 0).isLt
  have h3 := (buf.getD (off + 3) 0).isLt
  have := b0.isLt
  have := b1.isLt
  have := b2.isLt
  have := b3.isLt
  constructor
  · intro h
    omega
  · rintro ⟨e0, e1, e2, e3⟩
    omega

theorem u16at_lt (buf : List Byte) (off : Nat) : u16at buf off < 65536 := by
  unfold u16at
  have := (buf.getD off 0).isLt
  have := (buf.getD (off + 1) 0).isLt
  omega

/-- The first header test on a buffer of at least 44 bytes. -/
theorem badTags_eq {buf : List Byte} (hlen : 44 ≤ buf.length) :
    badTags buf = .ok (decide (¬ (tagAt buf 0 = [0x52, 0x49, 0x46, 0x46] ∧
      tagAt buf 8 = [0x57, 0x41, 0x56, 0x45] ∧ tagAt buf 12 = [0x66, 0x6d, 0x74, 0x20] ∧
      tagAt buf 36 = [0x64, 0x61, 0x74, 0x61]))) := by
  have t0 := tag_iff buf 0 (by omega) 0x52 0x49 0x46 0x46
  have t1 := tag_iff buf 8 (by omega) 0x57 0x41 0x56 0x45
  have t2 := tag_iff buf 12 (by omega) 0x66 0x6d 0x74 0x20
  have t3 := tag_iff buf 36 (by omega) 0x64 0x61 0x74 0x61
  have s0 : u32at buf 0 = 0x46464952 ↔ tagAt buf 0 = [0x52, 0x49, 0x46, 0x46] := t0
  have s1 : u32at buf 8 = 0x45564157 ↔ tagAt buf 8 = [0x57, 0x41, 0x56, 0x45] := t1
  have s2 : u32at buf 12 = 0x20746d66 ↔ tagAt buf 12 = [0x66, 0x6d, 0x74, 0x20] := t2
  have s3 : u32at buf 36 = 0x61746164 ↔ tagAt buf 36 = [0x64, 0x61, 0x74, 0x61] := t3
  unfold badTags orNe
  rw [rd32_eq (by omega), rd32_eq (by omega), rd32_eq (by omega), rd32_eq (by omega)]
  simp only [Outcome.bind, ← s0, ← s1, ← s2, ← s3]
  by_cases h0 : u32at buf 0 = 0x46464952 <;> by_cases h1 : u32at buf 8 = 0x45564157 <;>
    by_cases h2 : u32at buf 12 = 0x20746d66 <;> by_cases h3 : u32at buf 36 = 0x61746164 <;>
    simp [h0, h1, h2, h3]

/-- The second header test on a buffer of at least 44 bytes. -/
theorem badFormat_eq {buf : List Byte} (hlen : 44 ≤ buf.length) :
    badFormat buf = .ok (decide (¬ (u16at buf 20 = 1 ∧ u16at buf 22 = 2 ∧
      u32at buf 24 = 44100 ∧ u16at buf 34 = 16 ∧ u32at buf 28 = 176400 ∧
      u16at buf 32 = 4))) := by
  unfold badFormat orNe
  rw [rd16_eq (by omega), rd16_eq (by omega), rd32_eq (by omega), rd32_eq (by omega),
    rd16_eq (by omega), rd16_eq (by omega)]
  simp only [Outcome.bind]
  have hb := u16at_lt buf 34
  by_cases h0 : u16at buf 20 = 1 <;> by_cases h1 : u16at buf 22 = 2 <;>
    by_cases h2 : u32at buf 24 = 44100 <;> by_cases h3 : u16at buf 34 = 16 <;>
    simp [h0, h1, h2, h3, toU32]
  by_cases h4 : u32at buf 28 = 176400 <;> by_cases h5 : u16at buf 32 = 4 <;>
    simp [h4, h5]

/-- C6: on a buffer that holds the 44 header bytes, the header validation of `readsample`
passes if and only if the bytes at offsets 0, 8, 12 and 36 are `RIFF`, `WAVE`, `fmt ` and
`data` and `audioformat = 1`, `numchannels = 2`, `samplerate = 44100`,
`bitspersample = 16`, `byterate = 176400`, `blockalign = 4`. Every other header is rejected
with an exception: a bad RIFF header when a tag differs, a bad audio format otherwise; so
are a sample rate of 22050, one channel, and a depth of 8 bits. -/
theorem C6_header_validation (buf : List Byte) (hlen : 44 ≤ buf.length) :
    (checkHeader buf = .ok () ↔ TagsOk buf ∧ FormatOk buf) ∧
      (¬ TagsOk buf → checkHeader buf = .raise .badRiffHeader) ∧
      (TagsOk buf → ¬ FormatOk buf → checkHeader buf = .raise .badAudioFormat) ∧
      (u32at buf 24 = 22050 ∨ u16at buf 22 = 1 ∨ u16at buf 34 = 8 →
        ∃ e, checkHeader buf = .raise e) := by
  have hT := badTags_eq hlen
  have hF := badFormat_eq hlen
  have key : checkHeader buf =
      if ¬ TagsOk buf then Outcome.raise Err.badRiffHeader
      else if ¬ FormatOk buf then Outcome.raise Err.badAudioFormat else Outcome.ok () := by
    unfold checkHeader
    rw [hT, hF]
    simp only [Outcome.bind, decide_eq_true_eq]
    rfl
  have h1 : ¬ TagsOk buf → checkHeader buf = .raise .badRiffHeader := by
    intro h
    rw [key, if_pos h]
  have h2 : TagsOk buf → ¬ FormatOk buf → checkHeader buf = .raise .badAudioFormat := by
    intro ht hf
    rw [key, if_neg (not_not.2 ht), if_pos hf]
  have h3 : checkHeader buf = .ok () ↔ TagsOk buf ∧ FormatOk buf := by
    constructor
    · intro h
      by_cases ht : TagsOk buf
      · by_cases hf : FormatOk buf
        · exact ⟨ht, hf⟩
        · rw [h2 ht hf] at h
          cases h
      · rw [h1 ht] at h
        cases h
    · rintro ⟨ht, hf⟩
      rw [key, if_neg (not_not.2 ht), if_neg (not_not.2 hf)]
  refine ⟨h3, h1, h2, fun hbad => ?_⟩
  have hnf : ¬ FormatOk buf := by
    unfold FormatOk
    omega
  by_cases ht : TagsOk buf
  · exact ⟨_, h2 ht hnf⟩
  · exact ⟨_, h1 ht⟩

/-- Instance of C6 at the canonical header and at headers of 22050 Hz, mono and 8-bit
files. -/
theorem C6_header_validation_witness :
    44 ≤ (wavHeader 0).length ∧ checkHeader (wavHeader 0) = .ok () ∧
      (checkHeader (wavHeader 0) = .ok () ↔ TagsOk (wavHeader 0) ∧ FormatOk (wavHeader 0)) ∧
      checkHeader (wavHeaderWith 1 2 22050 88200 4 16 0) = .raise .badAudioFormat ∧
      checkHeader (wavHeaderWith 1 1 44100 88200 2 16 0) = .raise .badAudioFormat ∧
      checkHeader (wavHeaderWith 1 2 44100 88200 2 8 0) = .raise .badAudioFormat :=
  ⟨by decide, by decide, (C6_header_validation (wavHeader 0) (by decide)).1,
    by decide, by decide, by decide⟩

/-! ## C7: the decoded clip -/

theorem rdI16_eq {buf : List Byte} {off : Nat} (h : off + 2 ≤ buf.length) :
    rdI16 buf off = .ok (i16at buf off) := by
  unfold rdI16
  rw [rd16_eq h]
  have := u16at_lt buf off
  have e : toI16 (u16at buf off : Int) = i16at buf off := by
    unfold toI16 i16at
    split <;> split <;> omega
  show Outcome.ok (toI16 (u16at buf off : Int)) = Outcome.ok (i16at buf off)
  rw [e]

/-- The conversion loop on a buffer that holds all the samples it reads. -/
theorem convertLoop_eq {buf : List Byte} {n p : Nat} (h : p + 2 * n ≤ buf.length) :
    convertLoop buf n p =
      .ok ((List.range n).map fun i => decodeSample (i16at buf (p + 2 * i))) := by
  induction n generalizing p with
  | zero => rfl
  | succ n ih =>
    unfold convertLoop
    rw [rdI16_eq (by omega), ih (by omega), List.range_succ_eq_map]
    simp only [Outcome.bind, List.map_cons, List.map_map, Nat.mul_zero, Nat.add_zero]
    congr 2
    apply List.map_congr_left
    intro i _
    simp only [Function.comp]
    congr 2
    omega

/-- C7 as stated fails: in a complete, valid file whose first sample is 513, the first
decoded sample is neither the binary32 quotient of 513 by 32767 nor the exact fraction. -/
theorem C7_counterexample :
    checkHeader frame513 = .ok () ∧ 44 + u32at frame513 40 = frame513.length ∧
      i16at frame513 44 = 513 ∧
      readsample freshVoice (some frame513) =
        .ok { freshVoice with length := 2, data := [decodeSample 513, decodeSample 513] } ∧
      decodeSample 513 ≠ f32div (f32ofInt 513) (f32ofInt 32767) ∧
      (decodeSample 513).toRat ≠ 513 / 32767 := by
  refine ⟨by decide, by decide, by decide, by decide, by decide, ?_⟩
  have hv : decodeSample 513 = ⟨11172490953115172570892978485807245686734848⟩ := by decide
  rw [hv]
  unfold F32.toRat
  norm_num

theorem recip32767_eq : recip32767 = ⟨32769 * pow2 119⟩ := by decide

theorem recip32767_toRat : recip32767.toRat = 32769 / 1073741824 := by
  rw [recip32767_eq]
  unfold F32.toRat pow2
  norm_num

/-- A decoded sample differs from the sample divided by 32767 by at most `2^-23`. -/
theorem decodeSample_err (x : Int) (hx : -32768 ≤ x ∧ x ≤ 32767) :
    |(decodeSample x).toRat - (x : ℚ) / 32767| ≤ 1 / 8388608 := by
  have hof := f32ofInt_exact x (by omega)
  have h149 : pow2 149 = 713623846352979940529142984724747568191373312 := by decide
  have h119 : pow2 119 = 664613997892457936451903530140172288 := by decide
  have h275 : pow2 275 = 60708402882054033466233184588234965832575213720379360039119137804340758912662765568 := by
    decide
  generalize hn : x * pow2 149 * (32769 * pow2 119) = n
  have hdec : decodeSample x = f32round n 149 := by
    unfold decodeSample f32mul
    rw [hof, recip32767_eq, hn]
  have hbl : bitLen n ≤ 299 := by
    rw [bitLen_le_iff, ← hn, h149, h119]
    have : (2 : Nat) ^ 299 = 1018517988167243043134222844204689080525734196832968125318070224677190649881668353091698688 := by
      norm_num
    rw [this]
    omega
  generalize hd : max (bitLen n - 24) 149 = d
  have hd1 : 149 ≤ d := by omega
  have hd2 : d ≤ 275 := by omega
  have hU : (decodeSample x).units = roundShift n d * pow2 (d - 149) := by
    rw [hdec]
    unfold f32round
    simp only [hd]
  have hUA : (decodeSample x).units * pow2 149 = roundShift n d * pow2 d := by
    rw [hU, mul_assoc, ← pow2_add]
    congr 2
    omega
  have herr := roundShift_err n d
  have hpd : pow2 d ≤ pow2 275 := by
    unfold pow2
    exact_mod_cast Nat.pow_le_pow_right (by decide) hd2
  rw [← hUA, ← hn, h149, h119] at herr
  rw [h275] at hpd
  unfold F32.toRat
  generalize (decodeSample x).units = U at herr ⊢
  generalize pow2 d = P at herr hpd
  have hlo : -(713623846352979940529142984724747568191373312 * 32767 : Int) ≤
      (U * 32767 - x * 713623846352979940529142984724747568191373312) * 8388608 := by
    omega
  have hhi : (U * 32767 - x * 713623846352979940529142984724747568191373312) * 8388608 ≤
      (713623846352979940529142984724747568191373312 * 32767 : Int) := by
    omega
  have hloq : -(713623846352979940529142984724747568191373312 * 32767 : ℚ) ≤
      ((U : ℚ) * 32767 - x * 713623846352979940529142984724747568191373312) * 8388608 := by
    exact_mod_cast hlo
  have hhiq : ((U : ℚ) * 32767 - x * 713623846352979940529142984724747568191373312) * 8388608 ≤
      (713623846352979940529142984724747568191373312 * 32767 : ℚ) := by
    exact_mod_cast hhi
  have e149 : (2 : ℚ) ^ 149 = 713623846352979940529142984724747568191373312 := by norm_num
  rw [e149, abs_le]
  constructor
  · rw [div_sub_div _ _ (by norm_num) (by norm_num), le_div_iff₀ (by norm_num)]
    linarith
  · rw [div_sub_div _ _ (by norm_num) (by norm_num), div_le_iff₀ (by norm_num)]
    linarith

theorem i16at_range (buf : List Byte) (off : Nat) :
    -32768 ≤ i16at buf off ∧ i16at buf off ≤ 32767 := by
  have := u16at_lt buf off
  unfold i16at
  split <;> omega

/-- C7, amended: for every file that passes header validation and holds the 44 header bytes
and the `2 * (datasize / 2)` sample bytes that the header declares, `readsample` produces a
clip whose length is `datasize / 2` and whose `i`-th sample, for every `i` below that
length, is the binary32 product of the signed 16-bit little-endian integer at byte offset
`44 + 2 * i` and the binary32 constant `1.0f/32767.0f`, which is `32769 / 2^30`. That
product is within `2^-23` of the integer divided by 32767. -/
theorem C7_readsample_clip (voice : voice_t F32) (buf : List Byte)
    (hv : checkHeader buf = .ok ()) (hfull : 44 + 2 * (u32at buf 40 / 2) ≤ buf.length) :
    ∃ v1, readsample voice (some buf) = .ok v1 ∧
      v1.length = ((u32at buf 40 / 2 : Nat) : Int) ∧ v1.data.length = u32at buf 40 / 2 ∧
      (∀ i, i < u32at buf 40 / 2 →
        v1.data.get? i = some (f32mul (f32ofInt (i16at buf (44 + 2 * i))) recip32767) ∧
        |(f32mul (f32ofInt (i16at buf (44 + 2 * i))) recip32767).toRat -
          (i16at buf (44 + 2 * i) : ℚ) / 32767| ≤ 1 / 8388608) ∧
      recip32767.toRat = 32769 / 1073741824 ∧ v1.start = voice.start := by
  refine ⟨{ voice with
      length := ((u32at buf 40 / 2 : Nat) : Int),
      data := (List.range (u32at buf 40 / 2)).map
        (fun i => decodeSample (i16at buf (44 + 2 * i))) },
    ?_, rfl, ?_, ?_, recip32767_toRat, rfl⟩
  · unfold readsample
    simp only [hv, Outcome.bind]
    rw [rd32_eq (by omega)]
    simp only [Nat.shiftRight_eq_div_pow, pow_one, sizeof_wavhdr]
    rw [convertLoop_eq hfull]
  · simp only [List.length_map, List.length_range]
  · intro i hi
    refine ⟨?_, decodeSample_err _ (i16at_range buf _)⟩
    simp only [List.get?_eq_getElem?, List.getElem?_map, List.getElem?_range hi, Option.map_some']
    rfl

/-- Instance of C7 at a complete file of one stereo frame. -/
theorem C7_readsample_clip_witness :
    checkHeader frame513 = .ok () ∧ 44 + 2 * (u32at frame513 40 / 2) ≤ frame513.length ∧
      ∃ v1, readsample freshVoice (some frame513) = .ok v1 ∧
        v1.length = ((u32at frame513 40 / 2 : Nat) : Int) ∧
        v1.data.length = u32at frame513 40 / 2 :=
  ⟨by decide, by decide,
    (C7_readsample_clip freshVoice frame513 (by decide) (by decide)).imp
      fun _ h => ⟨h.1, h.2.1, h.2.2.1⟩⟩

/-! ## C8: files shorter than declared -/

theorem rd8_undefined {buf : List Byte} {off : Nat} (h : buf.length ≤ off) :
    rd8 buf off = .undefined := by
  unfold rd8
  rw [List.get?_eq_none.2 h]

theorem rdI16_undefined {buf : List Byte} {off : Nat} (h : buf.length < off + 2) :
    rdI16 buf off = .undefined := by
  unfold rdI16 rd16
  by_cases h0 : off < buf.length
  · rw [rd8_eq h0, rd8_undefined (by omega : buf.length ≤ off + 1)]
    rfl
  · rw [rd8_undefined (by omega)]
    rfl

/-- The conversion loop on a buffer that ends before the last sample it reads. -/
theorem convertLoop_undefined {buf : List Byte} {n p : Nat} (hp : p ≤ buf.length)
    (h : buf.length < p + 2 * n) : convertLoop buf n p = .undefined := by
  induction n generalizing p with
  | zero => omega
  | succ n ih =>
    unfold convertLoop
    by_cases h0 : p + 2 ≤ buf.length
    · rw [rdI16_eq h0, ih h0 (by omega)]
      rfl
    · rw [rdI16_undefined (by omega)]
      rfl

/-- A file that passes header validation but ends before its declared samples is not
rejected: the conversion loop reads past the end of the file buffer. -/
theorem readsample_truncated (voice : voice_t F32) (buf : List Byte)
    (hv : checkHeader buf = .ok ()) (hshort : buf.length < 44 + 2 * (u32at buf 40 / 2)) :
    readsample voice (some buf) = .undefined := by
  unfold readsample
  simp only [hv, Outcome.bind]
  by_cases h : 44 ≤ buf.length
  · rw [rd32_eq (by omega)]
    simp only [Nat.shiftRight_eq_div_pow, pow_one, sizeof_wavhdr]
    rw [convertLoop_undefined h hshort]
  · have : rd32 buf 40 = .undefined := by
      unfold rd32
      by_cases h0 : 40 < buf.length
      · by_cases h1 : 41 < buf.length
        · by_cases h2 : 42 < buf.length
          · rw [rd8_eq h0, rd8_eq h1, rd8_eq h2, rd8_undefined (by omega)]
            rfl
          · rw [rd8_eq h0, rd8_eq h1, rd8_undefined (by omega)]
            rfl
        · rw [rd8_eq h0, rd8_undefined (by omega)]
          rfl
      · rw [rd8_undefined (by omega)]
        rfl
    rw [this]

/-- C8 fails on the code: a file that is only a valid 44-byte header declaring four bytes
of sample data passes the checks, and `readsample` raises no exception; it reads the two
samples from beyond the end of the file buffer. So does it read the header of an empty
file. -/
theorem C8_short_file_not_rejected :
    headerOnly.length = 44 ∧ u32at headerOnly 40 = 4 ∧ checkHeader headerOnly = .ok () ∧
      readsample freshVoice (some headerOnly) = .undefined ∧
      readsample freshVoice (some []) = .undefined ∧
      (∀ e, readsample freshVoice (some headerOnly) ≠ .raise e) := by
  refine ⟨by decide, by decide, by decide, by decide, by decide, ?_⟩
  intro e h
  have : readsample freshVoice (some headerOnly) = .undefined := by decide
  rw [this] at h
  cases h

/-! ## C9: the frames submitted to the encoder -/

theorem ramp_length (n : Nat) : (ramp n).length = n := by
  simp [ramp]

/-- C9 fails on the code: for a quantized buffer of 8194 samples, that is 4097 stereo
frames, the encode loop makes one call, for the first 4096 frames, and then stops, because
`samplesleft` drops by 8192 for a chunk of 4096 frames. The last frame is never
submitted. -/
theorem C9_frames_skipped :
    (ramp 8194).length = 8194 ∧ 8194 >>> 1 = 4097 ∧ encodeCalls 8194 = [(0, 4096)] ∧
      submitted (ramp 8194) = (ramp 8194).take 8192 ∧
      (submitted (ramp 8194)).length = 8192 ∧ submitted (ramp 8194) ≠ ramp 8194 := by
  have hl := ramp_length 8194
  have hc : encodeCalls 8194 = [(0, 4096)] := by decide
  have hs : submitted (ramp 8194) = (ramp 8194).take 8192 := by
    unfold submitted
    rw [hl, hc]
    simp [callSamples]
  have hlen : (submitted (ramp 8194)).length = 8192 := by
    rw [hs, List.length_take, hl]
    rfl
  refine ⟨hl, by decide, hc, hs, hlen, fun h => ?_⟩
  rw [h, hl] at hlen
  exact absurd hlen (by decide)

/-- More rounds than the encode loop uses do not change its calls. -/
theorem encodeLoop_fuel (fuel extra : Nat) (samplesleft : Int) (ptr : Nat)
    (h : samplesleft ≤ (fuel : Int)) :
    encodeLoop (fuel + extra) samplesleft ptr = encodeLoop fuel samplesleft ptr := by
  induction fuel generalizing samplesleft ptr with
  | zero =>
    have hs : ¬ samplesleft > 0 := by
      simp only [Nat.cast_zero] at h
      omega
    cases extra with
    | zero => rfl
    | succ e =>
      rw [Nat.zero_add]
      simp only [encodeLoop, hs, if_false]
  | succ fuel ih =>
    have e : fuel + 1 + extra = (fuel + extra) + 1 := by omega
    rw [e]
    simp only [encodeLoop]
    split
    · rw [ih]
      push_cast at h
      omega
    · rfl

/-! ## C10: the conversion to 16 bits -/

theorem pow2_149 : pow2 149 = 713623846352979940529142984724747568191373312 := by decide

/-- C10 as stated fails: for the mixed value 70000 the truncated product is 2293690112,
which no `int` holds, so the conversion has no defined result; it is not the wrapped value
`-4352`. -/
theorem C10_counterexample :
    f32trunc (f32mul (f32ofInt 70000) (f32ofInt 32767)) = 2293690112 ∧
      toI16 2293690112 = -4352 ∧
      quantizeSample (f32ofInt 70000) = .undefined ∧
      quantizeSample (f32ofInt 70000) ≠ .ok (toI16 2293690112) := by
  decide

/-- C10, amended: for every mixed value `v` whose truncated binary32 product `v * 32767`
fits an `int`, the converted sample is a signed 16-bit integer that differs from that
truncated product by a multiple of `2^16`. The truncation is toward zero. A truncated
product in `[-32768, 32767]` is returned as it is; outside that range the result wraps and
is not clamped: the value 2 gives `-2`. -/
theorem C10_quantize_wraps (v : F32)
    (hfit : -2147483648 ≤ f32trunc (f32mul v (f32ofInt 32767)) ∧
      f32trunc (f32mul v (f32ofInt 32767)) ≤ 2147483647) :
    ∃ q, quantizeSample v = .ok q ∧ -32768 ≤ q ∧ q ≤ 32767 ∧
      (∃ c : Int, q = f32trunc (f32mul v (f32ofInt 32767)) + 65536 * c) ∧
      (-32768 ≤ f32trunc (f32mul v (f32ofInt 32767)) ∧
        f32trunc (f32mul v (f32ofInt 32767)) ≤ 32767 →
          q = f32trunc (f32mul v (f32ofInt 32767))) ∧
      (0 ≤ (f32mul v (f32ofInt 32767)).units →
        f32trunc (f32mul v (f32ofInt 32767)) * pow2 149 ≤ (f32mul v (f32ofInt 32767)).units ∧
        (f32mul v (f32ofInt 32767)).units <
          (f32trunc (f32mul v (f32ofInt 32767)) + 1) * pow2 149) ∧
      ((f32mul v (f32ofInt 32767)).units ≤ 0 →
        (f32trunc (f32mul v (f32ofInt 32767)) - 1) * pow2 149 <
          (f32mul v (f32ofInt 32767)).units ∧
        (f32mul v (f32ofInt 32767)).units ≤
          f32trunc (f32mul v (f32ofInt 32767)) * pow2 149) ∧
      (f32ofInt 32767).toRat = 32767 ∧
      f32trunc (f32mul (f32ofInt 2) (f32ofInt 32767)) = 65534 ∧
      quantizeSample (f32ofInt 2) = .ok (-2) := by
  have hq : quantizeSample v = .ok (toI16 (f32trunc (f32mul v (f32ofInt 32767)))) := by
    unfold quantizeSample
    simp only [hfit, and_self, if_true]
  refine ⟨_, hq, ?_⟩
  clear hq hfit
  generalize f32mul v (f32ofInt 32767) = p
  have htr : f32trunc p = Int.tdiv p.units 713623846352979940529142984724747568191373312 := by
    unfold f32trunc
    rw [pow2_149]
  have hpos : 0 ≤ p.units →
      f32trunc p = p.units / 713623846352979940529142984724747568191373312 := by
    intro h
    rw [htr, Int.tdiv_eq_ediv h (by decide)]
  have hneg : p.units ≤ 0 →
      f32trunc p = -((-p.units) / 713623846352979940529142984724747568191373312) := by
    intro h
    have h2 : p.units = -(-p.units) := by omega
    rw [htr]
    conv_lhs => rw [h2]
    rw [Int.neg_tdiv, Int.tdiv_eq_ediv (by omega) (by decide)]
  rw [pow2_149]
  generalize f32trunc p = t at hpos hneg ⊢
  refine ⟨?_, ?_, ?_, ?_, ?_, ?_, ?_, by decide, by decide⟩
  · unfold toI16
    split <;> omega
  · unfold toI16
    split <;> omega
  · unfold toI16
    split
    · exact ⟨-(t / 65536), by omega⟩
    · exact ⟨-(t / 65536) - 1, by omega⟩
  · intro h
    unfold toI16
    split <;> omega
  · intro h
    have := hpos h
    omega
  · intro h
    have := hneg h
    omega
  · have : f32ofInt 32767 = ⟨32767 * pow2 149⟩ := by decide
    rw [this, pow2_149]
    unfold F32.toRat
    norm_num

/-- Instance of C10 at the mixed value 2, whose product 65534 wraps to `-2`. -/
theorem C10_quantize_wraps_witness :
    (-2147483648 ≤ f32trunc (f32mul (f32ofInt 2) (f32ofInt 32767)) ∧
      f32trunc (f32mul (f32ofInt 2) (f32ofInt 32767)) ≤ 2147483647) ∧
      ∃ q, quantizeSample (f32ofInt 2) = .ok q ∧ -32768 ≤ q ∧ q ≤ 32767 :=
  ⟨by decide,
    (C10_quantize_wraps (f32ofInt 2) (by decide)).imp fun _ h => ⟨h.1, h.2.1, h.2.2.1⟩⟩


/-! ## C11: two clips of one second -/

theorem readsample_complete (voice : voice_t F32) (buf : List Byte)
    (hv : checkHeader buf = .ok ()) (hfull : 44 + 2 * (u32at buf 40 / 2) ≤ buf.length) :
    readsample voice (some buf) =
      .ok { voice with
        length := ((u32at buf 40 / 2 : Nat) : Int),
        data := (List.range (u32at buf 40 / 2)).map
          (fun i => decodeSample (i16at buf (44 + 2 * i))) } := by
  unfold readsample
  simp only [hv, Outcome.bind]
  rw [rd32_eq (by omega)]
  simp only [Nat.shiftRight_eq_div_pow, pow_one, sizeof_wavhdr]
  rw [convertLoop_eq hfull]

theorem toneFile_length : toneFile.length = 88244 := by
  unfold toneFile
  rw [List.length_append, List.length_replicate]
  rfl

theorem toneFile_header : checkHeader toneFile = .ok () := by decide

theorem toneFile_datasize : u32at toneFile 40 = 88200 := by decide

theorem toneFile_full : 44 + 2 * (u32at toneFile 40 / 2) ≤ toneFile.length := by
  rw [toneFile_datasize, toneFile_length]

theorem toneFile_reads (voice : voice_t F32) :
    readsample voice (some toneFile) =
      .ok { voice with
        length := ((u32at toneFile 40 / 2 : Nat) : Int),
        data := (List.range (u32at toneFile 40 / 2)).map
          (fun i => decodeSample (i16at toneFile (44 + 2 * i))) } :=
  readsample_complete voice toneFile toneFile_header toneFile_full

theorem toneFile_reads_lit (voice : voice_t F32) :
    readsample voice (some toneFile) =
      .ok { voice with
        length := 44100,
        data := (List.range 44100).map fun i => decodeSample (i16at toneFile (44 + 2 * i)) } := by
  rw [toneFile_reads, toneFile_datasize]
  have e : (88200 / 2 : Nat) = 44100 := by decide
  rw [e]
  simp only [Nat.cast_ofNat]

theorem alignStart_zero : alignStart 0 = 0 := by decide

theorem alignStart_22050 : alignStart 22050 = 22048 := by decide

theorem toneTotal_first : toU32 (MAX ((0 : Nat) : Int) (0 + 44100)) = 44100 := by decide

theorem toneTotal_second : toU32 (MAX ((44100 : Nat) : Int) (22048 + 44100)) = 66148 := by decide

theorem toneSchedule_loads :
    loadLoop toneSchedule 0 = .ok ([toneVoice 0, toneVoice 22048], 66148) := by
  unfold toneSchedule
  rw [loadLoop]
  dsimp only
  rw [toneFile_reads_lit, Outcome.bind]
  dsimp only
  rw [alignStart_zero, toneTotal_first, loadLoop]
  dsimp only
  rw [toneFile_reads_lit, Outcome.bind]
  dsimp only
  rw [alignStart_22050, toneTotal_second, loadLoop, Outcome.bind]
  rfl

/-- C11 as stated fails: with the second clip requested at 22050, the clip is placed at
22048 and the mix buffer has the length 66148, not 66150. -/
theorem C11_counterexample :
    loadLoop toneSchedule 0 = .ok ([toneVoice 0, toneVoice 22048], 66148) ∧
      (toneVoice 0).length = 44100 ∧ (toneVoice 22048).length = 44100 ∧
      (toneVoice 22048).start = 22048 ∧ (66148 : Nat) ≠ 44100 + 22050 :=
  ⟨toneSchedule_loads, rfl, rfl, rfl, by decide⟩

/-- C11, amended: for two clips A and B each of sampleCount 44100, A requested at start 0
and B requested at start 22050, B is placed at 22048 and the mix buffer has the length
`44100 + 22048 = 66148`; every index `k` in `[22048, 44100)` holds `A[k] + B[k - 22048]`,
every index `k` in `[44100, 66148)` holds `B[k - 22048]` alone, and every index below 22048
holds `A[k]` alone. -/
theorem C11_two_clips (fileA fileB : Option (List Byte)) (vs : List (voice_t F32))
    (total : Nat) (h : loadLoop [⟨0, fileA⟩, ⟨22050, fileB⟩] 0 = .ok (vs, total))
    (hlen : ∀ v ∈ vs, v.length = 44100) :
    total = 66148 ∧
      ∃ vA vB out, vs = [vA, vB] ∧ vA.start = 0 ∧ vB.start = 22048 ∧
        mixLoop vs (zeroBuf total) = .ok out ∧ out.size = 66148 ∧
        (∀ k : Nat, 22048 ≤ k → k < 44100 →
          ∃ a b, vA.data.get? k = some a ∧ vB.data.get? (k - 22048) = some b ∧
            out.cell k = a + b) ∧
        (∀ k : Nat, 44100 ≤ k → k < 66148 →
          ∃ b, vB.data.get? (k - 22048) = some b ∧ out.cell k = b) ∧
        (∀ k : Nat, k < 22048 → ∃ a, vA.data.get? k = some a ∧ out.cell k = a) := by
  have hst : ∀ d ∈ ([⟨0, fileA⟩, ⟨22050, fileB⟩] : List Descriptor),
      0 ≤ d.start ∧ d.start < 2147483648 := by
    intro d hd
    simp only [List.mem_cons, List.mem_singleton, List.not_mem_nil, or_false] at hd
    rcases hd with rfl | rfl <;> constructor <;> dsimp only <;> decide
  have hl := loadLoop_ok h
  have hfits := loadLoop_fits hst h
  have hrep := loaded_isRep hl
  have htot := loadLoop_total hst (by decide) h
  obtain ⟨vA, vs1, hA, hl1, rfl⟩ := List.forall₂_cons_left_iff.1 hl
  obtain ⟨vB, vs2, hB, hl2, rfl⟩ := List.forall₂_cons_left_iff.1 hl1
  have hnil : vs2 = [] := List.forall₂_nil_left_iff.1 hl2
  subst hnil
  have hsA : vA.start = 0 := by
    rw [(Loaded.facts hA).1]
    exact alignStart_zero
  have hsB : vB.start = 22048 := by
    rw [(Loaded.facts hB).1]
    exact alignStart_22050
  have hlA : vA.length = 44100 := hlen vA (List.mem_cons_self _ _)
  have hlB : vB.length = 44100 :=
    hlen vB (List.mem_cons_of_mem _ (List.mem_cons_self _ _))
  have hdA : vA.data.length = 44100 := by
    have := (Loaded.facts hA).2.2.2
    omega
  have hdB : vB.data.length = 44100 := by
    have := (Loaded.facts hB).2.2.2
    omega
  have ht : total = 66148 := by
    simp only [maxEnd, List.map_cons, List.map_nil, List.foldr_cons, List.foldr_nil, voiceEnd,
      hsA, hsB, hlA, hlB, Nat.cast_zero] at htot
    omega
  obtain ⟨out, ho1, ho2, ho3⟩ := mixLoop_spec [vA, vB] (zeroBuf total) hfits
  have hcell : ∀ k : Nat, out.cell k = sumFrom 0 (mixed k [vA, vB]) := fun k => ho3 k
  have hgetA : ∀ k : Nat, k < 44100 → ∃ a, vA.data.get? k = some a ∧ a.isRep := by
    intro k hk
    have hlt : k < vA.data.length := by omega
    exact ⟨vA.data.get ⟨k, hlt⟩, List.get?_eq_get hlt,
      hrep vA (List.mem_cons_self _ _) _ (List.get_mem _ _ _)⟩
  have hgetB : ∀ k : Nat, k < 44100 → ∃ b, vB.data.get? k = some b ∧ b.isRep := by
    intro k hk
    have hlt : k < vB.data.length := by omega
    exact ⟨vB.data.get ⟨k, hlt⟩, List.get?_eq_get hlt,
      hrep vB (List.mem_cons_of_mem _ (List.mem_cons_self _ _)) _ (List.get_mem _ _ _)⟩
  have hrA : ∀ k : Nat, reached vA k ↔ k < 44100 := by
    intro k
    simp only [reached, covers, voiceEnd, hsA, hlA]
    omega
  have hrB : ∀ k : Nat, reached vB k ↔ 22048 ≤ k ∧ k < 66148 := by
    intro k
    simp only [reached, covers, voiceEnd, hsB, hlB]
    omega
  have hiA : ∀ k : Nat, ((k : Int) - vA.start).toNat = k := by
    intro k
    rw [hsA]
    omega
  have hiB : ∀ k : Nat, 22048 ≤ k → ((k : Int) - vB.start).toNat = k - 22048 := by
    intro k hk
    rw [hsB]
    omega
  refine ⟨ht, vA, vB, out, rfl, hsA, hsB, ho1, ?_, ?_, ?_, ?_⟩
  · rw [ho2, ← ht]
    rfl
  · intro k h1 h2
    obtain ⟨a, ha, hra⟩ := hgetA k h2
    obtain ⟨b, hb, _⟩ := hgetB (k - 22048) (by omega)
    refine ⟨a, b, ha, hb, ?_⟩
    rw [hcell k]
    simp only [mixed, List.filterMap_cons, List.filterMap_nil, (hrA k).2 h2,
      (hrB k).2 ⟨h1, by omega⟩, if_true, hiA k, hiB k h1, ha, hb, sumFrom, List.foldl_cons,
      List.foldl_nil]
    rw [f32_zero_add a hra]
  · intro k h1 h2
    obtain ⟨b, hb, hrb⟩ := hgetB (k - 22048) (by omega)
    refine ⟨b, hb, ?_⟩
    rw [hcell k]
    have hnA : ¬ reached vA k := fun hc => by
      have := (hrA k).1 hc
      omega
    simp only [mixed, List.filterMap_cons, List.filterMap_nil, hnA,
      (hrB k).2 ⟨by omega, h2⟩, if_true, if_false, hiB k (by omega), hb, sumFrom,
      List.foldl_cons, List.foldl_nil]
    exact f32_zero_add b hrb
  · intro k h1
    obtain ⟨a, ha, hra⟩ := hgetA k (by omega)
    refine ⟨a, ha, ?_⟩
    rw [hcell k]
    have hnB : ¬ reached vB k := fun hc => by
      have := (hrB k).1 hc
      omega
    simp only [mixed, List.filterMap_cons, List.filterMap_nil, hnB,
      (hrA k).2 (by omega), if_true, if_false, hiA k, ha, sumFrom,
      List.foldl_cons, List.foldl_nil]
    exact f32_zero_add a hra

theorem toneVoice_lengths : ∀ v ∈ [toneVoice 0, toneVoice 22048], v.length = 44100 := by
  intro v hv
  simp only [List.mem_cons, List.mem_singleton, List.not_mem_nil, or_false] at hv
  rcases hv with rfl | rfl <;> rfl

/-- Instance of C11 at two copies of a constant tone of 44100 samples. -/
theorem C11_two_clips_witness :
    loadLoop [⟨0, some toneFile⟩, ⟨22050, some toneFile⟩] 0 =
        .ok ([toneVoice 0, toneVoice 22048], 66148) ∧
      (∀ v ∈ [toneVoice 0, toneVoice 22048], v.length = 44100) ∧
      ((66148 : Nat) = 66148 ∧
        ∃ vA vB out, [toneVoice 0, toneVoice 22048] = [vA, vB] ∧ vA.start = 0 ∧
          vB.start = 22048 ∧
          mixLoop [toneVoice 0, toneVoice 22048] (zeroBuf 66148) = .ok out ∧
          out.size = 66148 ∧
          (∀ k : Nat, 22048 ≤ k → k < 44100 →
            ∃ a b, vA.data.get? k = some a ∧ vB.data.get? (k - 22048) = some b ∧
              out.cell k = a + b) ∧
          (∀ k : Nat, 44100 ≤ k → k < 66148 →
            ∃ b, vB.data.get? (k - 22048) = some b ∧ out.cell k = b) ∧
          (∀ k : Nat, k < 22048 → ∃ a, vA.data.get? k = some a ∧ out.cell k = a)) :=
  ⟨toneSchedule_loads, toneVoice_lengths,
    C11_two_clips (some toneFile) (some toneFile) [toneVoice 0, toneVoice 22048] 66148
      toneSchedule_loads toneVoice_lengths⟩


/-! ## C12: quantizing and then decoding -/

theorem lt_bitLen_iff (n : Int) (k : Nat) : k < bitLen n ↔ 2 ^ k ≤ n.natAbs := by
  rw [← not_le, bitLen_le_iff, not_lt]

theorem pow2_le_pow2 {a b : Nat} (h : a ≤ b) : pow2 a ≤ pow2 b := by
  unfold pow2
  exact_mod_cast Nat.pow_le_pow_right (by decide) h

theorem pow2_dvd_pow2 {a b : Nat} (h : a ≤ b) : pow2 a ∣ pow2 b := by
  obtain ⟨c, hc⟩ := Nat.exists_eq_add_of_le h
  rw [hc, pow2_add]
  exact Dvd.intro _ rfl

/-- The number of digits of a positive integer between two powers of two. -/
theorem bitLen_eq_of_bounds (n : Int) (k : Nat) (h1 : pow2 k ≤ n) (h2 : n < pow2 (k + 1)) :
    bitLen n = k + 1 := by
  have hp := pow2_pos k
  have hle : bitLen n ≤ k + 1 := (bitLen_le_iff n (k + 1)).2 (by
    unfold pow2 at h1 h2 hp
    omega)
  have hgt : k < bitLen n := (lt_bitLen_iff n k).2 (by
    unfold pow2 at h1 h2 hp
    omega)
  omega

theorem bitLen_mul_pow2 (n : Int) (s : Nat) (hn : n ≠ 0) :
    bitLen (n * pow2 s) = bitLen n + s := by
  have habs : (n * pow2 s).natAbs = n.natAbs * 2 ^ s := by
    rw [Int.natAbs_mul]
    rfl
  apply le_antisymm
  · rw [bitLen_le_iff, habs, Nat.pow_add]
    have := (bitLen_le_iff n (bitLen n)).1 (le_refl _)
    exact (Nat.mul_lt_mul_right (Nat.two_pow_pos s)).2 this
  · have hpos : 0 < bitLen n := by
      rw [lt_bitLen_iff]
      simp only [Nat.pow_zero]
      omega
    have h1 : bitLen n - 1 < bitLen n := by omega
    rw [lt_bitLen_iff] at h1
    have h2 : bitLen n - 1 + s < bitLen (n * pow2 s) := by
      rw [lt_bitLen_iff, habs, Nat.pow_add]
      exact Nat.mul_le_mul_right _ h1
    omega

/-- Rounding is unchanged when the value and the step are scaled by the same power. -/
theorem roundShift_mul_pow2 (n : Int) (c s : Nat) :
    roundShift (n * pow2 s) (c + s) = roundShift n c := by
  have hs := pow2_pos s
  have hc := pow2_pos c
  have hq : n * pow2 s / pow2 (c + s) = n / pow2 c := by
    rw [pow2_add]
    exact Int.mul_ediv_mul_of_pos_left _ _ hs
  have hr : n * pow2 s % pow2 (c + s) = n % pow2 c * pow2 s := by
    rw [pow2_add, mul_comm n, mul_comm (pow2 c), Int.mul_emod_mul_of_pos _ _ hs, mul_comm]
  unfold roundShift
  dsimp only
  rw [hq, hr, pow2_add]
  generalize n / pow2 c = q
  generalize n % pow2 c = r
  have e1 : (2 * (r * pow2 s) < pow2 c * pow2 s) ↔ (2 * r < pow2 c) := by
    rw [← mul_assoc]
    exact mul_lt_mul_right hs
  have e2 : (pow2 c * pow2 s < 2 * (r * pow2 s)) ↔ (pow2 c < 2 * r) := by
    rw [← mul_assoc]
    exact mul_lt_mul_right hs
  simp only [e1, e2]

/-- Scaling the exact value by the power that the rounding takes off again. -/
theorem f32round_scale (n : Int) (s : Nat) : f32round (n * pow2 s) s = f32round n 0 := by
  by_cases hn : n = 0
  · subst hn
    have hz : ∀ d, roundShift 0 d = 0 := by
      intro d
      unfold roundShift
      simp [pow2_pos d]
    unfold f32round
    simp only [zero_mul, hz]
  · unfold f32round
    dsimp only
    rw [bitLen_mul_pow2 n s hn]
    by_cases hb : 24 ≤ bitLen n
    · have e1 : max (bitLen n + s - 24) s = (bitLen n - 24) + s := by
        rw [max_eq_left (by omega)]
        omega
      have e2 : max (bitLen n - 24) 0 = bitLen n - 24 := max_eq_left (Nat.zero_le _)
      rw [e1, e2, roundShift_mul_pow2, Nat.add_sub_cancel, Nat.sub_zero]
    · have e1 : max (bitLen n + s - 24) s = 0 + s := by
        rw [max_eq_right (by omega)]
        omega
      have e2 : max (bitLen n - 24) 0 = 0 := by
        rw [max_eq_left (Nat.zero_le _)]
        omega
      rw [e1, e2, roundShift_mul_pow2, Nat.add_sub_cancel, Nat.sub_zero]

/-- Rounding is odd: the rounding of `-n` is the negative of the rounding of `n`. -/
theorem roundShift_neg (n : Int) (d : Nat) : roundShift (-n) d = -roundShift n d := by
  have hp := pow2_pos d
  have h1 := Int.emod_add_ediv n (pow2 d)
  have h2 := Int.emod_nonneg n (ne_of_gt hp)
  have h3 := Int.emod_lt_of_pos n hp
  have k1 := Int.emod_add_ediv (-n) (pow2 d)
  have k2 := Int.emod_nonneg (-n) (ne_of_gt hp)
  have k3 := Int.emod_lt_of_pos (-n) hp
  unfold roundShift
  dsimp only
  generalize n / pow2 d = q at *
  generalize n % pow2 d = r at *
  generalize -n / pow2 d = q1 at *
  generalize -n % pow2 d = r1 at *
  generalize pow2 d = P at *
  have hsum : P * (q + q1) = -(r + r1) := by linarith
  have hcase : (q + q1 = 0 ∧ r = 0 ∧ r1 = 0) ∨ (q + q1 = -1 ∧ r + r1 = P) := by
    by_cases h0 : q + q1 = 0
    · left
      rw [h0, mul_zero] at hsum
      refine ⟨h0, ?_, ?_⟩ <;> omega
    · right
      have hlt : q + q1 < 0 := by
        by_contra hc
        have : 1 ≤ q + q1 := by omega
        have : P * 1 ≤ P * (q + q1) := Int.mul_le_mul_of_nonneg_left this (le_of_lt hp)
        omega
      have hge : -1 ≤ q + q1 := by
        by_contra hc
        have : q + q1 ≤ -2 := by omega
        have : P * (q + q1) ≤ P * (-2) := Int.mul_le_mul_of_nonneg_left this (le_of_lt hp)
        omega
      have e : q + q1 = -1 := by omega
      rw [e] at hsum
      exact ⟨e, by linarith⟩
  rcases hcase with ⟨ha, hb, hc⟩ | ⟨ha, hb⟩
  · subst hb
    subst hc
    simp only [mul_zero, hp, if_true]
    omega
  · have hq1 : q1 = -1 - q := by omega
    have hr1 : r1 = P - r := by omega
    subst hq1
    subst hr1
    split_ifs <;> omega

theorem bitLen_neg (n : Int) : bitLen (-n) = bitLen n := by
  unfold bitLen
  rw [Int.natAbs_neg]

theorem f32round_neg (n : Int) (s : Nat) : f32round (-n) s = ⟨-(f32round n s).units⟩ := by
  unfold f32round
  dsimp only
  rw [bitLen_neg, roundShift_neg, neg_mul]

/-- Rounding does not pass a multiple of the step that lies above the value. -/
theorem roundShift_le_of_le (x g : Int) (c : Nat) (h : x ≤ g * pow2 c) : roundShift x c ≤ g := by
  have hp := pow2_pos c
  have he := (roundShift_err x c).2
  by_contra hc
  have h1 : g + 1 ≤ roundShift x c := by omega
  have h2 : (g + 1) * pow2 c ≤ roundShift x c * pow2 c :=
    Int.mul_le_mul_of_nonneg_right h1 (le_of_lt hp)
  have h3 : (g + 1) * pow2 c = g * pow2 c + pow2 c := by ring
  omega

/-- Rounding does not pass a multiple of the step that lies below the value. -/
theorem roundShift_ge_of_ge (x g : Int) (c : Nat) (h : g * pow2 c ≤ x) : g ≤ roundShift x c := by
  have hp := pow2_pos c
  have he := (roundShift_err x c).1
  by_contra hc
  have h1 : roundShift x c ≤ g - 1 := by omega
  have h2 : roundShift x c * pow2 c ≤ (g - 1) * pow2 c :=
    Int.mul_le_mul_of_nonneg_right h1 (le_of_lt hp)
  have h3 : (g - 1) * pow2 c = g * pow2 c - pow2 c := by ring
  omega


theorem pow2_eq (n : Nat) : pow2 n = (2 : Int) ^ n := by
  unfold pow2
  push_cast
  rfl

theorem f32round_zero_units (n : Int) :
    (f32round n 0).units = roundShift n (bitLen n - 24) * pow2 (bitLen n - 24) := by
  unfold f32round
  simp only [Nat.sub_zero, Nat.zero_le, max_eq_left]

/-- A binary32 value is a multiple of the unit of its last significand digit. -/
theorem isRep_dvd {V : Int} (h : F32.isRep ⟨V⟩) : pow2 (bitLen V - 24) ∣ V := by
  unfold F32.isRep at h
  have h1 := congrArg F32.units h
  rw [f32round_zero_units] at h1
  exact Dvd.intro_left _ h1

/-- The product `x*32767.0f` is the rounding of the exact product. -/
theorem quantize_product (V : Int) :
    f32mul ⟨V⟩ (f32ofInt 32767) = f32round (V * 32767) 0 := by
  rw [f32ofInt_exact 32767 ⟨by decide, by decide⟩]
  unfold f32mul
  dsimp only
  rw [← mul_assoc, f32round_scale]

/-- The decoded sample is the rounding of the exact product with `32769 * 2^-30`. -/
theorem decodeSample_round (q : Int) (hq : -32768 ≤ q ∧ q ≤ 32767) :
    decodeSample q = f32round (q * 32769 * pow2 119) 0 := by
  unfold decodeSample f32mul
  rw [f32ofInt_exact q (by omega), recip32767_eq]
  dsimp only
  rw [show q * pow2 149 * (32769 * pow2 119) = q * 32769 * pow2 119 * pow2 149 by ring,
    f32round_scale]

/-- The arithmetic of the round trip when the exact product lies at or above `q`: the value
and the decoded sample are multiples of `2^(L+110)` units, `L` being the number of digits
of `q`. -/
theorem roundtrip_core (L : Nat) (hL : 1 ≤ L ∧ L ≤ 15) (q M d pc : Int)
    (hq : pow2 (L - 1) ≤ q ∧ q < pow2 L)
    (hpc : pow2 (L + 125) ≤ pc)
    (hX : 2 * (M * pow2 (L + 110) * 32767) ≤ 2 * (q + 1) * pow2 149 - pc)
    (hlow : q * pow2 149 ≤ M * pow2 (L + 110) * 32767)
    (hD1 : -pow2 (L + 110) ≤ 2 * (d * pow2 (L + 110) - q * 32769 * pow2 119))
    (hD2 : 2 * (d * pow2 (L + 110) - q * 32769 * pow2 119) ≤ pow2 (L + 110)) :
    32767 * (d * pow2 (L + 110) - M * pow2 (L + 110)) ≤ pow2 149 ∧
      32767 * (M * pow2 (L + 110) - d * pow2 (L + 110)) ≤ pow2 149 := by
  obtain ⟨h1, h2⟩ := hL
  obtain ⟨hq1, hq2⟩ := hq
  interval_cases L <;> norm_num [pow2_eq] at * <;> constructor <;> omega

/-- The arithmetic of the round trip when the exact product lies below `q` and is rounded
up to it. -/
theorem roundtrip_core_low (q V D T pc : Int) (hq : 0 ≤ q ∧ q ≤ 32767)
    (hT : 0 < T ∧ T ≤ pow2 125) (hpc : 0 < pc ∧ pc ≤ pow2 140)
    (hhigh : V * 32767 < q * pow2 149)
    (hG2 : 2 * q * pow2 149 - pc ≤ 2 * (V * 32767))
    (hD1 : -T ≤ 2 * (D - q * 32769 * pow2 119))
    (hD2 : 2 * (D - q * 32769 * pow2 119) ≤ T) :
    32767 * (D - V) ≤ pow2 149 ∧ 32767 * (V - D) ≤ pow2 149 := by
  norm_num [pow2_eq] at *
  constructor <;> omega

/-- The round trip on a non-negative value of at most `1.0`, in units of `2^-149`. -/
theorem roundtrip_nonneg (V : Int) (hrep : F32.isRep ⟨V⟩) (h0 : 0 ≤ V) (h1 : V ≤ pow2 149) :
    ∃ q : Int, 0 ≤ q ∧ q ≤ 32767 ∧ f32trunc (f32mul ⟨V⟩ (f32ofInt 32767)) = q ∧
      q * pow2 149 - 32767 * V ≤ pow2 149 ∧ 32767 * V - q * pow2 149 ≤ pow2 149 ∧
      32767 * ((decodeSample q).units - V) ≤ pow2 149 ∧
      32767 * (V - (decodeSample q).units) ≤ pow2 149 := by
  have hp149 := pow2_pos 149
  have h15 : pow2 15 = 32768 := by decide
  -- the exact product and its rounding
  generalize hX : V * 32767 = X
  have hX0 : 0 ≤ X := by omega
  have hX1 : X ≤ 32767 * pow2 149 := by omega
  generalize hc : bitLen X - 24 = c
  have hc140 : c ≤ 140 := by
    have hlt : X < pow2 164 := by
      have h164 : pow2 164 = pow2 15 * pow2 149 := pow2_add 15 149
      rw [h164, h15]
      omega
    have : bitLen X ≤ 164 := (bitLen_le_iff X 164).2 (by
      unfold pow2 at hlt
      omega)
    omega
  have hpc := pow2_pos c
  have herr := roundShift_err X c
  have hPu : (f32mul ⟨V⟩ (f32ofInt 32767)).units = roundShift X c * pow2 c := by
    rw [quantize_product, hX, f32round_zero_units, hc]
  have h149c : pow2 149 = pow2 (149 - c) * pow2 c := by
    rw [← pow2_add]
    congr 1
    omega
  have hr0 : 0 ≤ roundShift X c := roundShift_ge_of_ge X 0 c (by rw [zero_mul]; exact hX0)
  have hrmax : roundShift X c ≤ 32767 * pow2 (149 - c) := by
    apply roundShift_le_of_le
    rw [mul_assoc, ← h149c]
    exact hX1
  generalize roundShift X c = r at *
  have hP0 : 0 ≤ r * pow2 c := mul_nonneg hr0 (le_of_lt hpc)
  have hPmax : r * pow2 c ≤ 32767 * pow2 149 := by
    rw [h149c, ← mul_assoc]
    exact Int.mul_le_mul_of_nonneg_right hrmax (le_of_lt hpc)
  -- the truncation
  have hqlo : r * pow2 c / pow2 149 * pow2 149 ≤ r * pow2 c :=
    Int.ediv_mul_le _ (ne_of_gt hp149)
  have hqhi : r * pow2 c < (r * pow2 c / pow2 149 + 1) * pow2 149 :=
    Int.lt_ediv_add_one_mul_self _ hp149
  have hq0 : 0 ≤ r * pow2 c / pow2 149 := Int.ediv_nonneg hP0 (le_of_lt hp149)
  have htr : f32trunc (f32mul ⟨V⟩ (f32ofInt 32767)) = r * pow2 c / pow2 149 := by
    unfold f32trunc
    rw [hPu, Int.tdiv_eq_ediv hP0 (le_of_lt hp149)]
  generalize r * pow2 c / pow2 149 = q at *
  have hqmax : q ≤ 32767 := by
    by_contra hcon
    have h2 : 32768 ≤ q := by omega
    have h3 : 32768 * pow2 149 ≤ q * pow2 149 :=
      Int.mul_le_mul_of_nonneg_right h2 (le_of_lt hp149)
    omega
  have hstep : r * pow2 c + pow2 c ≤ (q + 1) * pow2 149 := by
    have h2 : r < (q + 1) * pow2 (149 - c) := by
      by_contra hcon
      have h3 : (q + 1) * pow2 (149 - c) ≤ r := by omega
      have h4 := Int.mul_le_mul_of_nonneg_right h3 (le_of_lt hpc)
      rw [mul_assoc, ← h149c] at h4
      omega
    have h3 : r + 1 ≤ (q + 1) * pow2 (149 - c) := by omega
    have h4 := Int.mul_le_mul_of_nonneg_right h3 (le_of_lt hpc)
    rw [mul_assoc, ← h149c, add_mul, one_mul] at h4
    exact h4
  have hG1 : 2 * X ≤ 2 * (q + 1) * pow2 149 - pow2 c := by linarith [herr.1, hstep]
  have hG2 : 2 * q * pow2 149 - pow2 c ≤ 2 * X := by linarith [herr.2, hqlo]
  have hpc149 : pow2 c ≤ pow2 149 := pow2_le_pow2 (by omega)
  refine ⟨q, hq0, hqmax, htr, by linarith, by linarith, ?_⟩
  by_cases hqz : q = 0
  · subst hqz
    have hd0 : decodeSample 0 = ⟨0⟩ := by decide
    rw [hd0]
    dsimp only
    constructor <;> linarith
  -- the digits of `q` and of the exact decoded product
  have hq1 : 1 ≤ q := by omega
  generalize hL : bitLen q = L
  have hL15 : L ≤ 15 := by
    rw [← hL, bitLen_le_iff]
    omega
  have hL1 : 1 ≤ L := by
    have : 0 < bitLen q := by
      rw [lt_bitLen_iff]
      omega
    omega
  have hqL : pow2 (L - 1) ≤ q ∧ q < pow2 L := by
    constructor
    · have h2 : L - 1 < bitLen q := by omega
      rw [lt_bitLen_iff] at h2
      unfold pow2
      omega
    · rw [← hL]
      exact (abs_lt_pow2_bitLen q).2
  have hpL := pow2_pos (L - 1)
  have hwL : pow2 L ≤ 32768 := by
    rw [← h15]
    exact pow2_le_pow2 hL15
  have hLs : pow2 L = pow2 (L - 1) * 2 := by
    have e : L = (L - 1) + 1 := by omega
    have h2 : pow2 1 = 2 := by decide
    rw [← h2, ← pow2_add, ← e]
  have hbq : bitLen (q * 32769) = L + 15 := by
    apply bitLen_eq_of_bounds
    · have e : pow2 (L + 14) = pow2 (L - 1) * pow2 15 := by
        rw [← pow2_add]
        congr 1
        omega
      rw [e, h15]
      omega
    · have e : pow2 (L + 14 + 1) = pow2 L * pow2 15 := by
        rw [← pow2_add]
      rw [e, h15]
      omega
  have hbE : bitLen (q * 32769 * pow2 119) - 24 = L + 110 := by
    rw [bitLen_mul_pow2 _ _ (by omega), hbq]
    omega
  have hDu : (decodeSample q).units =
      roundShift (q * 32769 * pow2 119) (L + 110) * pow2 (L + 110) := by
    rw [decodeSample_round q (by omega), f32round_zero_units, hbE]
  have hDerr := roundShift_err (q * 32769 * pow2 119) (L + 110)
  rw [hDu]
  generalize roundShift (q * 32769 * pow2 119) (L + 110) = d at *
  by_cases hlow : q * pow2 149 ≤ X
  · -- the value lies on the grid of step `2^(L+110)`
    have e148 : pow2 (L + 148) = pow2 (L - 1) * pow2 149 := by
      rw [← pow2_add]
      congr 1
      omega
    have hX148 : pow2 (L + 148) ≤ X := by
      rw [e148]
      have := Int.mul_le_mul_of_nonneg_right hqL.1 (le_of_lt hp149)
      omega
    have hcL : L + 125 ≤ c := by
      have : L + 148 < bitLen X := by
        rw [lt_bitLen_iff]
        unfold pow2 at hX148
        omega
      omega
    have hV133 : pow2 (L + 133) ≤ V := by
      have e : pow2 (L + 148) = pow2 (L + 133) * pow2 15 := by
        rw [← pow2_add]
      rw [e, h15] at hX148
      have := pow2_pos (L + 133)
      omega
    have hbV : L + 110 ≤ bitLen V - 24 := by
      have : L + 133 < bitLen V := by
        rw [lt_bitLen_iff]
        unfold pow2 at hV133
        omega
      omega
    obtain ⟨M, hM⟩ := dvd_trans (pow2_dvd_pow2 hbV) (isRep_dvd hrep)
    have hVM : V = M * pow2 (L + 110) := by rw [hM, mul_comm]
    rw [hVM]
    rw [hVM] at hX
    apply roundtrip_core L ⟨hL1, hL15⟩ q M d (pow2 c) hqL (pow2_le_pow2 hcL)
    · rw [hX]
      exact hG1
    · rw [hX]
      exact hlow
    · exact hDerr.1
    · exact hDerr.2
  · have hT : 0 < pow2 (L + 110) ∧ pow2 (L + 110) ≤ pow2 125 :=
      ⟨pow2_pos _, pow2_le_pow2 (by omega)⟩
    exact roundtrip_core_low q V (d * pow2 (L + 110)) (pow2 (L + 110)) (pow2 c) ⟨hq0, hqmax⟩ hT
      ⟨hpc, pow2_le_pow2 hc140⟩ (by rw [hX]; omega) (by rw [hX]; exact hG2) hDerr.1 hDerr.2

theorem isRep_neg {V : Int} (h : F32.isRep ⟨V⟩) : F32.isRep ⟨-V⟩ := by
  unfold F32.isRep at h ⊢
  dsimp only at h ⊢
  rw [f32round_neg, h]

theorem f32mul_neg_left (V : Int) (b : F32) :
    f32mul ⟨-V⟩ b = ⟨-(f32mul ⟨V⟩ b).units⟩ := by
  unfold f32mul
  dsimp only
  rw [neg_mul, f32round_neg]

theorem f32trunc_neg (P : Int) : f32trunc ⟨-P⟩ = -f32trunc ⟨P⟩ := by
  unfold f32trunc
  dsimp only
  rw [Int.neg_tdiv]

theorem decodeSample_neg (q : Int) : decodeSample (-q) = ⟨-(decodeSample q).units⟩ := by
  unfold decodeSample f32ofInt
  rw [neg_mul, f32round_neg, f32mul_neg_left]

theorem quantizeSample_of_trunc (v : F32) (t : Int)
    (ht : f32trunc (f32mul v (f32ofInt 32767)) = t) (hr : -32768 ≤ t ∧ t ≤ 32767) :
    quantizeSample v = .ok t := by
  unfold quantizeSample
  dsimp only
  rw [ht, if_pos (by omega)]
  unfold toI16
  congr 1
  split <;> omega

theorem pow2_cast (n : Nat) : ((pow2 n : Int) : ℚ) = 2 ^ n := by
  rw [pow2_eq]
  push_cast
  rfl

/-- C12: for every binary32 sample value `v` with `-1 <= v <= 1`, the conversion
`(int16_t)(v*32767.0f)` gives a 16-bit value `q`, and the sample decoded from `q`, the
binary32 product of `(float)q` and `1.0f/32767.0f`, lies within `1/32767` of `v`. -/
theorem C12_quantize_decode_error (v : F32) (hrep : v.isRep)
    (hv : -1 ≤ v.toRat ∧ v.toRat ≤ 1) :
    ∃ q : Int, quantizeSample v = .ok q ∧
      |(decodeSample q).toRat - v.toRat| ≤ 1 / 32767 ∧
      |(q : ℚ) / 32767 - v.toRat| ≤ 1 / 32767 := by
  obtain ⟨V⟩ := v
  have hpq : (0 : ℚ) < 2 ^ 149 := by positivity
  have hV : -pow2 149 ≤ V ∧ V ≤ pow2 149 := by
    unfold F32.toRat at hv
    dsimp only at hv
    rw [le_div_iff₀ hpq, div_le_iff₀ hpq] at hv
    have e := pow2_cast 149
    constructor
    · have h1 : ((-pow2 149 : Int) : ℚ) ≤ (V : ℚ) := by
        push_cast
        rw [e]
        linarith [hv.1]
      exact_mod_cast h1
    · have h1 : (V : ℚ) ≤ ((pow2 149 : Int) : ℚ) := by
        rw [e]
        linarith [hv.2]
      exact_mod_cast h1
  have key : ∃ q : Int, quantizeSample ⟨V⟩ = .ok q ∧
      q * pow2 149 - 32767 * V ≤ pow2 149 ∧ 32767 * V - q * pow2 149 ≤ pow2 149 ∧
      32767 * ((decodeSample q).units - V) ≤ pow2 149 ∧
      32767 * (V - (decodeSample q).units) ≤ pow2 149 := by
    by_cases hs : 0 ≤ V
    · obtain ⟨q, hq0, hq1, ht, ha1, ha2, hb1, hb2⟩ := roundtrip_nonneg V hrep hs hV.2
      exact ⟨q, quantizeSample_of_trunc _ q ht (by omega), ha1, ha2, hb1, hb2⟩
    · obtain ⟨q, hq0, hq1, ht, ha1, ha2, hb1, hb2⟩ :=
        roundtrip_nonneg (-V) (isRep_neg hrep) (by omega) (by omega)
      refine ⟨-q, quantizeSample_of_trunc _ (-q) ?_ (by omega), by linarith, by linarith,
        ?_, ?_⟩
      · have e : (⟨V⟩ : F32) = ⟨- -V⟩ := by rw [neg_neg]
        rw [e, f32mul_neg_left, f32trunc_neg, ht]
      · rw [decodeSample_neg]
        dsimp only
        linarith
      · rw [decodeSample_neg]
        dsimp only
        linarith
  obtain ⟨q, hq, ha1, ha2, hb1, hb2⟩ := key
  refine ⟨q, hq, ?_, ?_⟩
  · unfold F32.toRat
    dsimp only
    generalize (decodeSample q).units = D at hb1 hb2 ⊢
    have e := pow2_cast 149
    have c1 : (32767 : ℚ) * ((D : ℚ) - V) ≤ 2 ^ 149 := by
      rw [← e]
      exact_mod_cast hb1
    have c2 : (32767 : ℚ) * ((V : ℚ) - D) ≤ 2 ^ 149 := by
      rw [← e]
      exact_mod_cast hb2
    have d1 : ((D : ℚ) - V) / 2 ^ 149 ≤ 1 / 32767 := by
      rw [div_le_iff₀ hpq]
      linarith
    have d2 : ((V : ℚ) - D) / 2 ^ 149 ≤ 1 / 32767 := by
      rw [div_le_iff₀ hpq]
      linarith
    have d3 : ((D : ℚ) - V) / 2 ^ 149 = -(((V : ℚ) - D) / 2 ^ 149) := by ring
    rw [← sub_div, abs_le]
    constructor
    · rw [d3]
      linarith
    · exact d1
  · unfold F32.toRat
    dsimp only
    have e := pow2_cast 149
    have c1 : (q : ℚ) * 2 ^ 149 - 32767 * (V : ℚ) ≤ 2 ^ 149 := by
      rw [← e]
      exact_mod_cast ha1
    have c2 : 32767 * (V : ℚ) - (q : ℚ) * 2 ^ 149 ≤ 2 ^ 149 := by
      rw [← e]
      exact_mod_cast ha2
    have d1 : (V : ℚ) / 2 ^ 149 - (q : ℚ) / 32767 ≤ 1 / 32767 := by
      rw [div_sub_div _ _ (ne_of_gt hpq) (by norm_num), div_le_div_iff₀ (by positivity)
        (by norm_num)]
      nlinarith
    have d2 : (q : ℚ) / 32767 - (V : ℚ) / 2 ^ 149 ≤ 1 / 32767 := by
      rw [div_sub_div _ _ (by norm_num) (ne_of_gt hpq), div_le_div_iff₀ (by positivity)
        (by norm_num)]
      nlinarith
    rw [abs_le]
    constructor <;> linarith

/-- Instance of C12 at `0x1.0001fep-15`: the value is quantized to 0, which decodes to 0,
and the distance, the value itself, is just within `1/32767`. -/
theorem C12_quantize_decode_error_witness :
    nearStep.isRep ∧ (-1 ≤ nearStep.toRat ∧ nearStep.toRat ≤ 1) ∧
      quantizeSample nearStep = .ok 0 ∧
      ∃ q : Int, quantizeSample nearStep = .ok q ∧
        |(decodeSample q).toRat - nearStep.toRat| ≤ 1 / 32767 ∧
        |(q : ℚ) / 32767 - nearStep.toRat| ≤ 1 / 32767 := by
  have hr : nearStep.isRep := by decide
  have hv : -1 ≤ nearStep.toRat ∧ nearStep.toRat ≤ 1 := by
    unfold F32.toRat nearStep pow2
    norm_num
  exact ⟨hr, hv, by decide, C12_quantize_decode_error nearStep hr hv⟩

/-! ## C13: the range of a decoded sample -/

theorem toI16_range (x : Int) : -32768 ≤ toI16 x ∧ toI16 x ≤ 32767 := by
  unfold toI16
  split <;> omega

theorem rdI16_range {buf : List Byte} {off : Nat} {x : Int} (h : rdI16 buf off = .ok x) :
    -32768 ≤ x ∧ x ≤ 32767 := by
  unfold rdI16 at h
  simp only [Outcome.bind_eq_ok] at h
  obtain ⟨u, _, h⟩ := h
  rw [← Outcome.ok.inj h]
  exact toI16_range (u : Int)

/-- Every value that the conversion loop stores is the decoding of a 16-bit sample. -/
theorem convertLoop_mem {buf : List Byte} {n p : Nat} {data : List F32}
    (h : convertLoop buf n p = .ok data) :
    ∀ y ∈ data, ∃ x : Int, -32768 ≤ x ∧ x ≤ 32767 ∧ y = decodeSample x := by
  induction n generalizing p data with
  | zero =>
    simp only [convertLoop] at h
    cases h
    intro y hy
    cases hy
  | succ n ih =>
    simp only [convertLoop, Outcome.bind_eq_ok] at h
    obtain ⟨x, hx, rest, hr, h⟩ := h
    cases h
    intro y hy
    rcases List.mem_cons.1 hy with rfl | hy
    · exact ⟨x, (rdI16_range hx).1, (rdI16_range hx).2, rfl⟩
    · exact ih hr y hy

theorem decodeSample_min : decodeSample (-32768) = ⟨-32769 * pow2 134⟩ := by decide

theorem decodeSample_min_toRat : (decodeSample (-32768)).toRat = -32769 / 32768 := by
  rw [decodeSample_min]
  have : pow2 134 = 21778071482940061661655974875633165533184 := by decide
  rw [this]
  unfold F32.toRat
  norm_num

/-- The range of a decoded 16-bit sample: `[-32769/32768, 1]`, and `[-1, 1]` for every
sample but the minimum. -/
theorem decodeSample_range (x : Int) (hx : -32768 ≤ x ∧ x ≤ 32767) :
    -(32769 / 32768 : ℚ) ≤ (decodeSample x).toRat ∧ (decodeSample x).toRat ≤ 1 ∧
      (x ≠ -32768 → -1 ≤ (decodeSample x).toRat) := by
  by_cases hmid : -32766 ≤ x ∧ x ≤ 32766
  · have herr := abs_le.1 (decodeSample_err x hx)
    have h1 : (x : ℚ) ≤ 32766 := by exact_mod_cast hmid.2
    have h2 : (-32766 : ℚ) ≤ x := by exact_mod_cast hmid.1
    have h3 : (x : ℚ) / 32767 ≤ 32766 / 32767 := by
      apply div_le_div_of_nonneg_right h1 (by norm_num)
    have h4 : (-32766 : ℚ) / 32767 ≤ (x : ℚ) / 32767 := by
      apply div_le_div_of_nonneg_right h2 (by norm_num)
    have h5 : (32766 : ℚ) / 32767 + 1 / 8388608 ≤ 1 := by norm_num
    have h6 : (-1 : ℚ) ≤ -32766 / 32767 - 1 / 8388608 := by norm_num
    refine ⟨?_, ?_, fun _ => ?_⟩ <;> linarith [herr.1, herr.2]
  · have hcases : x = 32767 ∨ x = -32767 ∨ x = -32768 := by omega
    have h149 : pow2 149 = 713623846352979940529142984724747568191373312 := by decide
    rcases hcases with rfl | rfl | rfl
    · have : decodeSample 32767 = ⟨pow2 149⟩ := by decide
      rw [this, h149]
      unfold F32.toRat
      norm_num
    · have : decodeSample (-32767) = ⟨-pow2 149⟩ := by decide
      rw [this, h149]
      unfold F32.toRat
      norm_num
    · rw [decodeSample_min_toRat]
      norm_num

/-- C13 as stated fails: a valid file whose samples are -32768 decodes to the value
`-32769/32768`, which is below `-1`. -/
theorem C13_counterexample :
    checkHeader frameMin = .ok () ∧ i16at frameMin 44 = -32768 ∧
      readsample freshVoice (some frameMin) =
        .ok { freshVoice with
          length := 2, data := [decodeSample (-32768), decodeSample (-32768)] } ∧
      (decodeSample (-32768)).toRat = -32769 / 32768 ∧
      (decodeSample (-32768)).toRat < -1 := by
  refine ⟨by decide, by decide, by decide, decodeSample_min_toRat, ?_⟩
  rw [decodeSample_min_toRat]
  norm_num

/-- C13, amended: for every file that `readsample` decodes, every decoded sample value lies
in `[-32769/32768, 1.0]`; it lies in `[-1.0, 1.0]` unless it is the decoding of the minimum
sample -32768. -/
theorem C13_decoded_range (voice v1 : voice_t F32) (file : Option (List Byte))
    (h : readsample voice file = .ok v1) :
    ∀ y ∈ v1.data, -(32769 / 32768 : ℚ) ≤ y.toRat ∧ y.toRat ≤ 1 ∧
      (y ≠ decodeSample (-32768) → -1 ≤ y.toRat) := by
  obtain ⟨buf, datasize, _, _, _, hl, _⟩ := readsample_ok h
  intro y hy
  obtain ⟨x, hx1, hx2, rfl⟩ := convertLoop_mem hl y hy
  obtain ⟨h1, h2, h3⟩ := decodeSample_range x ⟨hx1, hx2⟩
  refine ⟨h1, h2, fun hne => h3 ?_⟩
  rintro rfl
  exact hne rfl

/-- Instance of C13 at a complete file of one stereo frame. -/
theorem C13_decoded_range_witness :
    readsample freshVoice (some frame513) =
        .ok { freshVoice with length := 2, data := [decodeSample 513, decodeSample 513] } ∧
      ∀ y ∈ [decodeSample 513, decodeSample 513],
        -(32769 / 32768 : ℚ) ≤ y.toRat ∧ y.toRat ≤ 1 ∧
          (y ≠ decodeSample (-32768) → -1 ≤ y.toRat) :=
  ⟨by decide,
    C13_decoded_range freshVoice
      { freshVoice with length := 2, data := [decodeSample 513, decodeSample 513] }
      (some frame513) (by decide)⟩


/-! ## C14: a rejected file leaves the sample data alone -/

theorem convertWrites_outcome (buf : List Byte) (n p i : Nat) :
    (convertWrites buf n p i).2 = (convertLoop buf n p).bind fun _ => .ok () := by
  induction n generalizing p i with
  | zero => rfl
  | succ n ih =>
    unfold convertWrites convertLoop
    cases hx : rdI16 buf p with
    | ok x =>
      simp only [Outcome.bind]
      rw [ih]
      cases convertLoop buf n (p + 2) <;> rfl
    | raise e => rfl
    | undefined => rfl

theorem convertWrites_apply (buf : List Byte) (n p : Nat) (data : List F32)
    (h : convertLoop buf n p = .ok data) (v : voice_t F32) :
    applyWrites v (convertWrites buf n p v.data.length).1 = { v with data := v.data ++ data } := by
  induction n generalizing p data v with
  | zero =>
    unfold convertLoop at h
    rw [← Outcome.ok.inj h, List.append_nil]
    rfl
  | succ n ih =>
    unfold convertLoop at h
    obtain ⟨x, hx, h⟩ := Outcome.bind_eq_ok.1 h
    obtain ⟨rest, hrest, h⟩ := Outcome.bind_eq_ok.1 h
    unfold convertWrites
    rw [hx]
    simp only [applyWrites, List.foldl_cons, applyWrite, List.take_length]
    have := ih (p + 2) rest hrest { v with data := v.data ++ [decodeSample x] }
    simp only [applyWrites, List.length_append, List.length_singleton] at this
    rw [this, ← Outcome.ok.inj h]
    simp only [List.append_assoc, List.singleton_append]

/-- The model of `readsample` used throughout is the outcome of the run with the writes,
carried out on the voice. -/
theorem readsample_eq_writes (voice : voice_t F32) (file : Option (List Byte)) :
    readsample voice file =
      (readsampleWrites file).2.bind fun _ =>
        .ok (applyWrites voice (readsampleWrites file).1) := by
  cases file with
  | none => rfl
  | some buf =>
    unfold readsample readsampleWrites
    dsimp only
    cases hc : checkHeader buf with
    | raise e => rfl
    | undefined => rfl
    | ok u =>
      dsimp only [Outcome.bind]
      cases hd : rd32 buf 40 with
      | raise e => rfl
      | undefined => rfl
      | ok datasize =>
        dsimp only
        rw [convertWrites_outcome]
        cases hl : convertLoop buf (datasize >>> 1) sizeof_wavhdr with
        | raise e => rfl
        | undefined => rfl
        | ok data =>
          simp only [Outcome.bind, applyWrites, List.foldl_cons, applyWrite]
          have := convertWrites_apply buf (datasize >>> 1) sizeof_wavhdr data hl
            { voice with length := ((datasize >>> 1 : Nat) : Int), data := [] }
          simp only [applyWrites, List.length_nil, List.nil_append] at this
          rw [this]

theorem rd8_ne_raise (buf : List Byte) (off : Nat) (e : Err) : rd8 buf off ≠ .raise e := by
  unfold rd8
  cases buf.get? off <;> exact fun h => Outcome.noConfusion h

theorem rd16_ne_raise (buf : List Byte) (off : Nat) (e : Err) : rd16 buf off ≠ .raise e := by
  unfold rd16
  cases h0 : rd8 buf off with
  | raise e0 => exact absurd h0 (rd8_ne_raise buf off e0)
  | undefined => exact fun h => Outcome.noConfusion h
  | ok b0 =>
    cases h1 : rd8 buf (off + 1) with
    | raise e1 => exact absurd h1 (rd8_ne_raise buf (off + 1) e1)
    | undefined => exact fun h => Outcome.noConfusion h
    | ok b1 => exact fun h => Outcome.noConfusion h

theorem convertLoop_ne_raise (buf : List Byte) (n p : Nat) (e : Err) :
    convertLoop buf n p ≠ .raise e := by
  induction n generalizing p e with
  | zero => exact fun h => Outcome.noConfusion h
  | succ n ih =>
    unfold convertLoop rdI16
    cases h0 : rd16 buf p with
    | raise e0 => exact absurd h0 (rd16_ne_raise buf p e0)
    | undefined => exact fun h => Outcome.noConfusion h
    | ok u =>
      dsimp only [Outcome.bind]
      cases h1 : convertLoop buf n (p + 2) with
      | raise e1 => exact absurd h1 (ih (p + 2) e1)
      | undefined => exact fun h => Outcome.noConfusion h
      | ok rest => exact fun h => Outcome.noConfusion h

/-- C14: when `readsample` rejects a file because its header tags or its audio-format
fields fail validation, the only write to the voice before the exception is
`voice->length=ftell(f)`: the block `voice->data` is not allocated, no sample is converted
or stored, and the data of the voice is what it was. -/
theorem C14_reject_writes_no_data (voice : voice_t F32) (file : Option (List Byte)) (e : Err)
    (he : e = .badRiffHeader ∨ e = .badAudioFormat)
    (h : readsample voice file = .raise e) :
    ∃ buf, file = some buf ∧
      readsampleWrites file = ([.length buf.length], .raise e) ∧
      (∀ w ∈ (readsampleWrites file).1, ∀ n i y, w ≠ .alloc n ∧ w ≠ .store i y) ∧
      (applyWrites voice (readsampleWrites file).1).data = voice.data := by
  have key : ∃ buf, file = some buf ∧
      readsampleWrites file = ([.length buf.length], .raise e) := by
    cases file with
    | none =>
      exfalso
      have h1 : e = .cannotOpenRead := (Outcome.raise.inj h).symm
      rcases he with he | he <;> rw [he] at h1 <;> exact Err.noConfusion h1
    | some buf =>
      refine ⟨buf, rfl, ?_⟩
      unfold readsample at h
      unfold readsampleWrites
      dsimp only at h ⊢
      cases hc : checkHeader buf with
      | raise e0 =>
        rw [hc] at h
        rw [Outcome.raise.inj h]
      | undefined =>
        rw [hc] at h
        exact Outcome.noConfusion h
      | ok u =>
        rw [hc] at h
        dsimp only [Outcome.bind] at h ⊢
        cases hd : rd32 buf 40 with
        | raise e0 =>
          rw [hd] at h
          rw [Outcome.raise.inj h]
        | undefined =>
          rw [hd] at h
          exact Outcome.noConfusion h
        | ok datasize =>
          rw [hd] at h
          dsimp only at h
          exfalso
          cases hl : convertLoop buf (datasize >>> 1) sizeof_wavhdr with
          | raise e1 => exact convertLoop_ne_raise buf _ _ e1 hl
          | undefined =>
            rw [hl] at h
            exact Outcome.noConfusion h
          | ok data =>
            rw [hl] at h
            exact Outcome.noConfusion h
  obtain ⟨buf, hf, hw⟩ := key
  refine ⟨buf, hf, hw, ?_, ?_⟩
  · intro w hw1 n i y
    rw [hw] at hw1
    rw [List.mem_singleton.1 hw1]
    exact ⟨fun hc => VoiceWrite.noConfusion hc, fun hc => VoiceWrite.noConfusion hc⟩
  · rw [hw]
    rfl

/-- Instance of C14 at three headers: 22050 Hz, one channel and 8-bit samples are each
rejected as a bad audio format, after the one write of the file size to `voice->length`. -/
theorem C14_reject_writes_no_data_witness :
    readsample freshVoice (some header22050) = .raise .badAudioFormat ∧
      readsample freshVoice (some headerMono) = .raise .badAudioFormat ∧
      readsample freshVoice (some header8bit) = .raise .badAudioFormat ∧
      ∃ buf, some header22050 = some buf ∧
        readsampleWrites (some header22050) = ([.length buf.length], .raise .badAudioFormat) ∧
        (∀ w ∈ (readsampleWrites (some header22050)).1,
          ∀ n i y, w ≠ .alloc n ∧ w ≠ .store i y) ∧
        (applyWrites freshVoice (readsampleWrites (some header22050)).1).data =
          freshVoice.data :=
  ⟨by decide, by decide, by decide,
    C14_reject_writes_no_data freshVoice (some header22050) .badAudioFormat (Or.inr rfl)
      (by decide)⟩


/-! ## C15: the empty schedule -/

/-- The render of one clip of one stereo frame: two accesses, two shorts, one chunk of one
frame and the flush. -/
theorem requencer_render_frame513 :
    requencer_render goodOutput [⟨0, some frame513⟩] =
      .ok ⟨2, [(0, 0), (1, 1)], [512, 512], [.encode 0 1, .flush], none⟩ := by
  decide


/-- C15: for the empty schedule, `requencer_render` computes the total length 0, the
mixing loop and the conversion loop make no access to a buffer (on a buffer of no cells,
where any access would be out of bounds, they end normally), and the encode loop submits
no chunk: when the output file opens and the write after the flush succeeds, the only
encoder call is the flush and no exception is raised. -/
theorem C15_empty_schedule (env : OutputEnv) (ho : env.opens = true)
    (hw : env.written 0 = true) :
    loadLoop [] 0 = .ok ([], 0) ∧
      mixLoop ([] : List (voice_t F32)) (zeroBuf 0) = .ok (zeroBuf 0) ∧
      quantizeLoop (zeroBuf 0) 0 0 = .ok [] ∧
      encodeCalls 0 = [] ∧
      requencer_render env [] = .ok ⟨0, [], [], [.flush], none⟩ := by
  refine ⟨rfl, rfl, rfl, by decide, ?_⟩
  have he : encodeCalls 0 = [] := by decide
  have hm : mixLoop ([] : List (voice_t F32)) (zeroBuf 0) = .ok (zeroBuf 0) := rfl
  unfold requencer_render
  rw [loadLoop]
  dsimp only [Outcome.bind]
  rw [hm]
  dsimp only [Outcome.bind]
  rw [quantizeLoop]
  dsimp only [Outcome.bind]
  unfold encodeOutput
  rw [he, ho]
  unfold feedEncoder
  rw [hw]
  rfl

/-- Instance of C15 at an output file that opens and takes every write. -/
theorem C15_empty_schedule_witness :
    goodOutput.opens = true ∧ goodOutput.written 0 = true ∧
      requencer_render goodOutput [] = .ok ⟨0, [], [], [.flush], none⟩ :=
  ⟨rfl, rfl, (C15_empty_schedule goodOutput rfl rfl).2.2.2.2⟩

/-! ## C16: decoding and then quantizing -/

/-- C16 as stated fails: the minimum sample -32768 decodes to `-32769/32768`, whose
binary32 product with 32767 rounds to `-32768.0`, and the conversion gives -32768 again. -/
theorem C16_counterexample :
    decodeSample (-32768) = ⟨-32769 * pow2 134⟩ ∧
      f32mul (decodeSample (-32768)) (f32ofInt 32767) = ⟨-32768 * pow2 149⟩ ∧
      quantizeSample (decodeSample (-32768)) = .ok (-32768) := by
  decide

/-- C16, amended: decoding a 16-bit sample and then quantizing it is not the identity on
16-bit samples: the sample 513 comes back as 512, and 31520 as 31519. The minimum value
-32768 and the maximum 32767 are reproduced. -/
theorem C16_roundtrip_not_identity :
    quantizeSample (decodeSample 513) = .ok 512 ∧
      quantizeSample (decodeSample 31520) = .ok 31519 ∧
      quantizeSample (decodeSample (-513)) = .ok (-512) ∧
      quantizeSample (decodeSample (-32768)) = .ok (-32768) ∧
      quantizeSample (decodeSample 32767) = .ok 32767 ∧
      ¬ (∀ x : Int, -32768 ≤ x → x ≤ 32767 → quantizeSample (decodeSample x) = .ok x) := by
  refine ⟨by decide, by decide, by decide, by decide, by decide, fun h => ?_⟩
  have h1 := h 513 (by decide) (by decide)
  have h2 : quantizeSample (decodeSample 513) = .ok 512 := by decide
  rw [h2] at h1
  exact absurd (Outcome.ok.inj h1) (by decide)

/-! ## C17: the recorded sample count -/

/-- C17 as stated fails: the clip decoded from a file of one stereo frame records the
length 2 and holds 2 sample values, not `2 / 2`. -/
theorem C17_counterexample :
    readsample freshVoice (some frame513) =
        .ok { freshVoice with length := 2, data := [decodeSample 513, decodeSample 513] } ∧
      ([decodeSample 513, decodeSample 513] : List F32).length = 2 ∧
      (2 : Int) ≠ (([decodeSample 513, decodeSample 513] : List F32).length / 2 : Nat) := by
  decide

/-- C17, amended: for every clip produced by `readsample`, the recorded sample count is
the number of decoded sample values, both channels counted, which is `datasize / 2`; it is
not divided by the channel count. -/
theorem C17_length_counts_samples (voice v1 : voice_t F32) (file : Option (List Byte))
    (h : readsample voice file = .ok v1) :
    v1.length = (v1.data.length : Int) ∧
      ∃ buf, file = some buf ∧ v1.data.length = u32at buf 40 / 2 := by
  obtain ⟨buf, datasize, hf, _, hd, hl, hv⟩ := readsample_ok h
  have hlen := convertLoop_length hl
  have h40 : u32at buf 40 = datasize := by
    by_cases hb : 44 ≤ buf.length
    · rw [rd32_eq (by omega)] at hd
      exact Outcome.ok.inj hd
    · exfalso
      have : rd32 buf 40 = .undefined := by
        unfold rd32
        by_cases h0 : 40 < buf.length
        · by_cases h1 : 41 < buf.length
          · by_cases h2 : 42 < buf.length
            · rw [rd8_eq h0, rd8_eq h1, rd8_eq h2, rd8_undefined (by omega)]
              rfl
            · rw [rd8_eq h0, rd8_eq h1, rd8_undefined (by omega)]
              rfl
          · rw [rd8_eq h0, rd8_undefined (by omega)]
            rfl
        · rw [rd8_undefined (by omega)]
          rfl
      rw [this] at hd
      cases hd
  refine ⟨?_, buf, hf, ?_⟩
  · rw [hv]
    simp only [hlen]
  · rw [hlen, h40, Nat.shiftRight_eq_div_pow]

/-- Instance of C17 at a complete file of one stereo frame. -/
theorem C17_length_counts_samples_witness :
    readsample freshVoice (some frame513) =
        .ok { freshVoice with length := 2, data := [decodeSample 513, decodeSample 513] } ∧
      (2 : Int) = (([decodeSample 513, decodeSample 513] : List F32).length : Int) :=
  ⟨by decide,
    (C17_length_counts_samples freshVoice
      { freshVoice with length := 2, data := [decodeSample 513, decodeSample 513] }
      (some frame513) (by decide)).1⟩


/-! ## C18: the conversion in place -/

theorem quantizeSample_range {x : F32} {s : Int} (h : quantizeSample x = .ok s) :
    -32768 ≤ s ∧ s ≤ 32767 := by
  unfold quantizeSample at h
  dsimp only at h
  split at h
  · rw [← Outcome.ok.inj h]
    exact toI16_range _
  · exact Outcome.noConfusion h

theorem quantizeBits_range {w : Nat} {s : Int} (h : quantizeBits w = .ok s) :
    -32768 ≤ s ∧ s ≤ 32767 := by
  unfold quantizeBits at h
  split at h
  · exact quantizeSample_range h
  · exact Outcome.noConfusion h

theorem storeI16_ok (m : Buf Byte) (off : Nat) (x : Int) (h : off + 2 ≤ m.size) :
    storeI16 m off x = .ok ⟨m.size, fun k =>
      if k = off then Fin.ofNat (x % 65536).toNat
      else if k = off + 1 then Fin.ofNat ((x % 65536).toNat / 256)
      else m.cell k⟩ := by
  unfold storeI16
  rw [if_pos h]

theorem loadBits_congr {m m1 : Buf Byte} {off : Nat} (hs : m1.size = m.size)
    (hc : ∀ k, off ≤ k → m1.cell k = m.cell k) : loadBits m1 off = loadBits m off := by
  unfold loadBits
  rw [hs, hc off (le_refl _), hc (off + 1) (by omega), hc (off + 2) (by omega),
    hc (off + 3) (by omega)]

theorem loadBits_ok_size {m : Buf Byte} {off w : Nat} (h : loadBits m off = .ok w) :
    off + 4 ≤ m.size := by
  unfold loadBits at h
  split at h
  · assumption
  · exact Outcome.noConfusion h

theorem shortAt_stored (i : Nat) (s : Int) (hs : -32768 ≤ s ∧ s ≤ 32767)
    (m1 : Buf Byte)
    (h0 : m1.cell (2 * i) = Fin.ofNat (s % 65536).toNat)
    (h1 : m1.cell (2 * i + 1) = Fin.ofNat ((s % 65536).toNat / 256)) :
    shortAt m1 i = s := by
  unfold shortAt
  rw [h0, h1]
  have hu : 0 ≤ s % 65536 ∧ s % 65536 < 65536 := by omega
  generalize hue : (s % 65536).toNat = u
  have hu2 : (u : Int) = s % 65536 := by omega
  have hv0 : ((Fin.ofNat u : Fin 256)).val = u % 256 := rfl
  have hv1 : ((Fin.ofNat (u / 256) : Fin 256)).val = u / 256 % 256 := rfl
  rw [hv0, hv1]
  have : u % 256 + 256 * (u / 256 % 256) = u := by omega
  rw [this, hu2]
  unfold toI16
  split <;> omega

/-- The stores of the rounds from `i` on leave the bytes below `2 * i` alone. -/
theorem quantizeInPlace_below (n i : Nat) (m mf : Buf Byte)
    (h : quantizeInPlace n i m = .ok mf) :
    mf.size = m.size ∧ ∀ k, k < 2 * i → mf.cell k = m.cell k := by
  induction n generalizing i m with
  | zero =>
    unfold quantizeInPlace at h
    rw [← Outcome.ok.inj h]
    exact ⟨rfl, fun _ _ => rfl⟩
  | succ n ih =>
    unfold quantizeInPlace at h
    obtain ⟨w, hw, h⟩ := Outcome.bind_eq_ok.1 h
    obtain ⟨s, hs, h⟩ := Outcome.bind_eq_ok.1 h
    obtain ⟨m1, hm1, h⟩ := Outcome.bind_eq_ok.1 h
    have hsz := loadBits_ok_size hw
    rw [storeI16_ok m (2 * i) s (by omega)] at hm1
    split at h
    · obtain ⟨h1, h2⟩ := ih (i + 1) m1 h
      rw [← Outcome.ok.inj hm1] at h1 h2
      refine ⟨h1, fun k hk => ?_⟩
      rw [h2 k (by omega)]
      dsimp only
      rw [if_neg (by omega), if_neg (by omega)]
    · exact Outcome.noConfusion h

/-- The rounds up to `i` leave the bytes from `2 * i` on alone. -/
theorem quantizeInPlace_above (n i : Nat) (m mf : Buf Byte)
    (h : quantizeInPlace n i m = .ok mf) :
    ∀ k, 2 * (i + n) ≤ k → mf.cell k = m.cell k := by
  induction n generalizing i m with
  | zero =>
    unfold quantizeInPlace at h
    rw [← Outcome.ok.inj h]
    exact fun _ _ => rfl
  | succ n ih =>
    unfold quantizeInPlace at h
    obtain ⟨w, hw, h⟩ := Outcome.bind_eq_ok.1 h
    obtain ⟨s, hs, h⟩ := Outcome.bind_eq_ok.1 h
    obtain ⟨m1, hm1, h⟩ := Outcome.bind_eq_ok.1 h
    have hsz := loadBits_ok_size hw
    rw [storeI16_ok m (2 * i) s (by omega)] at hm1
    split at h
    · have h2 := ih (i + 1) m1 h
      rw [← Outcome.ok.inj hm1] at h2
      intro k hk
      rw [h2 k (by omega)]
      dsimp only
      rw [if_neg (by omega), if_neg (by omega)]
    · exact Outcome.noConfusion h

theorem quantizeInPlace_refines (copy : Buf Byte) (n i : Nat) (m : Buf Byte)
    (hs : m.size = copy.size) (hc : ∀ k, 2 * i ≤ k → m.cell k = copy.cell k) :
    ((quantizeInPlace n i m).bind fun mf => .ok ((List.range' i n).map (shortAt mf))) =
      quantizeFromCopy copy n i := by
  induction n generalizing i m with
  | zero => rfl
  | succ n ih =>
    unfold quantizeInPlace quantizeFromCopy
    rw [loadBits_congr hs (fun k hk => hc k (by omega))]
    cases hw : loadBits copy (4 * i) with
    | raise e => rfl
    | undefined => rfl
    | ok w =>
      dsimp only [Outcome.bind]
      cases hq : quantizeBits w with
      | raise e => rfl
      | undefined => rfl
      | ok s =>
        dsimp only [Outcome.bind]
        have hsz := loadBits_ok_size hw
        rw [storeI16_ok m (2 * i) s (by omega)]
        dsimp only [Outcome.bind]
        by_cases hi : i + 1 < 2147483648
        · rw [if_pos hi, if_pos hi]
          have hrec := ih (i + 1)
            ⟨m.size, fun k =>
              if k = 2 * i then Fin.ofNat (s % 65536).toNat
              else if k = 2 * i + 1 then Fin.ofNat ((s % 65536).toNat / 256)
              else m.cell k⟩ hs (fun k hk => by
                dsimp only
                rw [if_neg (by omega), if_neg (by omega)]
                exact hc k (by omega))
          rw [← hrec]
          cases hf : quantizeInPlace n (i + 1)
            ⟨m.size, fun k =>
              if k = 2 * i then Fin.ofNat (s % 65536).toNat
              else if k = 2 * i + 1 then Fin.ofNat ((s % 65536).toNat / 256)
              else m.cell k⟩ with
          | raise e => rfl
          | undefined => rfl
          | ok mf =>
            dsimp only [Outcome.bind]
            have hb := (quantizeInPlace_below n (i + 1) _ mf hf).2
            have h0 : shortAt mf i = s := by
              apply shortAt_stored i s (quantizeBits_range hq) mf
              · rw [hb (2 * i) (by omega)]
                dsimp only
                rw [if_pos rfl]
              · rw [hb (2 * i + 1) (by omega)]
                dsimp only
                rw [if_neg (by omega), if_pos rfl]
            rw [List.range'_succ, List.map_cons, h0]
        · rw [if_neg hi, if_neg hi]

/-- C18: for every block and every count, the conversion in place (the float at byte
`4 * i` is read and then the short at byte `2 * i` of the same block is written, for `i`
ascending) ends as the conversion from an untouched copy of the block ends, and when it
ends normally the shorts it leaves in the block are the shorts converted from the copy.
No float is overwritten before it has been read: when round `i` starts, the block is
unchanged from byte `2 * i` on, and the float of round `i` lies from byte `4 * i` on. -/
theorem C18_in_place_conversion (m : Buf Byte) (totalsamples : Nat) :
    ((quantizeInPlace totalsamples 0 m).bind fun mf => .ok (shortsOf mf totalsamples)) =
        quantizeFromCopy m totalsamples 0 ∧
      ∀ (i : Nat) (mi : Buf Byte), quantizeInPlace i 0 m = .ok mi →
        mi.size = m.size ∧ (∀ k, 2 * i ≤ k → mi.cell k = m.cell k) ∧
          loadBits mi (4 * i) = loadBits m (4 * i) := by
  refine ⟨?_, fun i mi h => ?_⟩
  · have := quantizeInPlace_refines m totalsamples 0 m rfl (fun _ _ => rfl)
    unfold shortsOf
    rw [List.range_eq_range']
    exact this
  · have h1 := (quantizeInPlace_below i 0 m mi h).1
    have h2 := quantizeInPlace_above i 0 m mi h
    have h3 : ∀ k, 2 * i ≤ k → mi.cell k = m.cell k := fun k hk => h2 k (by omega)
    exact ⟨h1, h3, loadBits_congr h1 (fun k hk => h3 k (by omega))⟩

/-- Instance of C18 at the block of the two floats `1.0` and `-0.5`: the conversion in
place leaves the shorts 32767 and -16383, as the conversion from the copy gives them. -/
theorem C18_in_place_conversion_witness :
    quantizeFromCopy twoFloats 2 0 = .ok [32767, -16383] ∧
      ((quantizeInPlace 2 0 twoFloats).bind fun mf => .ok (shortsOf mf 2)) =
        quantizeFromCopy twoFloats 2 0 :=
  ⟨by decide, (C18_in_place_conversion twoFloats 2).1⟩

/-! ## C19: the chunks of the encode loop -/

/-- Every call that the encode loop makes from `samplesleft` frames and the offset `ptr`
has between 1 and 4096 frames and ends at or before `ptr + samplesleft`. -/
theorem encodeLoop_calls (fuel : Nat) (samplesleft : Int) (ptr : Nat) :
    ∀ c ∈ encodeLoop fuel samplesleft ptr,
      1 ≤ c.2 ∧ c.2 ≤ 4096 ∧ ptr ≤ c.1 ∧ (c.1 : Int) + c.2 ≤ (ptr : Int) + samplesleft := by
  induction fuel generalizing samplesleft ptr with
  | zero =>
    intro c hc
    simp only [encodeLoop, List.not_mem_nil] at hc
  | succ fuel ih =>
    intro c hc
    simp only [encodeLoop] at hc
    split at hc
    · rename_i hpos
      rcases List.mem_cons.1 hc with rfl | hc
      · simp only [MIN]
        split <;> omega
      · obtain ⟨h1, h2, h3, h4⟩ := ih (samplesleft - 8192) (ptr + 4096) c hc
        refine ⟨h1, h2, by omega, ?_⟩
        push_cast at h4
        omega
    · simp only [List.not_mem_nil] at hc

/-- The number of calls of the encode loop when it has rounds enough: one for every 8192
frames or part of them. -/
theorem encodeLoop_length (fuel : Nat) (samplesleft : Int) (ptr : Nat)
    (h : samplesleft ≤ (fuel : Int)) :
    ((encodeLoop fuel samplesleft ptr).length : Int) =
      if samplesleft > 0 then (samplesleft + 8191) / 8192 else 0 := by
  induction fuel generalizing samplesleft ptr with
  | zero =>
    have hs : ¬ samplesleft > 0 := by
      simp only [Nat.cast_zero] at h
      omega
    simp only [encodeLoop, hs, if_false, List.length_nil, Nat.cast_zero]
  | succ fuel ih =>
    simp only [encodeLoop]
    split
    · rename_i hpos
      rw [List.length_cons]
      push_cast
      rw [ih (samplesleft - 8192) (ptr + 4096) (by push_cast at h; omega)]
      split <;> omega
    · simp only [List.length_nil, Nat.cast_zero]

theorem toI32_half (total : Nat) (h : total < 4294967296) :
    toI32 ((total >>> 1 : Nat) : Int) = ((total / 2 : Nat) : Int) := by
  rw [Nat.shiftRight_eq_div_pow]
  unfold toI32 toU32
  simp only [pow_one]
  split <;> omega

/-- C19: for every total length that an `unsigned int` holds, each chunk that the encode
loop passes to the encoder has at least 1 and at most 4096 stereo frames and lies inside
the quantized buffer, its start offset plus its frames being at most `totalsamples / 2`.
The loop terminates: it makes one call for every 8192 frames or part of them, and more
rounds do not add a call. -/
theorem C19_chunks_in_bounds (total : Nat) (h : total < 4294967296) :
    (∀ c ∈ encodeCalls total,
        1 ≤ c.2 ∧ c.2 ≤ 4096 ∧ (c.1 : Int) + c.2 ≤ ((total / 2 : Nat) : Int) ∧
          2 * (c.1 : Int) + 2 * c.2 ≤ (total : Int)) ∧
      ((encodeCalls total).length : Int) = ((total / 2 : Nat) + 8191) / 8192 ∧
      ∀ extra : Nat,
        encodeLoop (total + extra) (toI32 ((total >>> 1 : Nat) : Int)) 0 = encodeCalls total := by
  have hhalf := toI32_half total h
  refine ⟨fun c hc => ?_, ?_, fun extra => ?_⟩
  · unfold encodeCalls at hc
    rw [hhalf] at hc
    obtain ⟨h1, h2, _, h4⟩ := encodeLoop_calls total _ 0 c hc
    refine ⟨h1, h2, by simpa using h4, ?_⟩
    simp only [Nat.cast_zero, zero_add] at h4
    omega
  · unfold encodeCalls
    rw [hhalf, encodeLoop_length total _ 0 (by omega)]
    split <;> omega
  · unfold encodeCalls
    rw [hhalf]
    exact encodeLoop_fuel total extra _ 0 (by omega)

/-- Instance of C19 at a total length of 20000 samples: two chunks, of 4096 and of 1808
frames. -/
theorem C19_chunks_in_bounds_witness :
    (20000 : Nat) < 4294967296 ∧ encodeCalls 20000 = [(0, 4096), (4096, 1808)] ∧
      ((encodeCalls 20000).length : Int) = ((20000 / 2 : Nat) + 8191) / 8192 :=
  ⟨by decide, by decide, (C19_chunks_in_bounds 20000 (by decide)).2.1⟩

/-! ## C20: the widths of the length computations -/

/-- C20: for every start in `[0, 2^31)` and every 32-bit `datasize`, the sum
`alignedStart + (datasize >> 1)` is below `2^32`, so the running maximum stored in the
`unsigned int` `totalsamples` is the exact maximum; the `int` end index of the mixing loop
is that sum exactly when the sum is below `2^31`, and only then. -/
theorem C20_length_widths (start : Int) (datasize totalsamples : Nat)
    (hs : 0 ≤ start ∧ start < 2147483648) (hd : datasize < 4294967296)
    (ht : totalsamples < 4294967296) :
    alignStart start + ((datasize >>> 1 : Nat) : Int) < 4294967296 ∧
      (toU32 (MAX (totalsamples : Int) (alignStart start + ((datasize >>> 1 : Nat) : Int))) :
          Int) =
        max (totalsamples : Int) (alignStart start + ((datasize >>> 1 : Nat) : Int)) ∧
      (toI32 (alignStart start + ((datasize >>> 1 : Nat) : Int)) =
          alignStart start + ((datasize >>> 1 : Nat) : Int) ↔
        alignStart start + ((datasize >>> 1 : Nat) : Int) < 2147483648) := by
  have ha := alignStart_eq start hs.1 hs.2
  rw [Nat.shiftRight_eq_div_pow]
  simp only [pow_one]
  generalize alignStart start = a at ha ⊢
  have ha1 : 0 ≤ a ∧ a ≤ start := by omega
  refine ⟨by omega, ?_, ?_⟩
  · unfold toU32 MAX
    split <;> omega
  · unfold toI32 toU32
    split <;> omega

/-- Instance of C20 at the start 2147483644 and a data size of 8 bytes: the sum is `2^31`,
which the `unsigned int` holds and the `int` does not. -/
theorem C20_length_widths_witness :
    ((0 : Int) ≤ 2147483644 ∧ (2147483644 : Int) < 2147483648) ∧
      (8 : Nat) < 4294967296 ∧ (0 : Nat) < 4294967296 ∧
      alignStart 2147483644 + ((8 >>> 1 : Nat) : Int) = 2147483648 ∧
      toI32 (alignStart 2147483644 + ((8 >>> 1 : Nat) : Int)) = -2147483648 ∧
      alignStart 2147483644 + ((8 >>> 1 : Nat) : Int) < 4294967296 :=
  ⟨by decide, by decide, by decide, by decide, by decide,
    (C20_length_widths 2147483644 8 0 (by decide) (by decide) (by decide)).1⟩

end Requencer
